import Mathlib

/-!
Verification of the aggregation/analytics layer of the `cepsscraper` dashboard
(`src/dashboard/src/utils/dataLoader.js`), shallowly embedded in Lean 4.

Modelling conventions:
* JS numbers are embedded as rationals (`ℚ`); `null` becomes `Option`.
* `Number.prototype.toFixed(f)` followed by unary `+` is embedded as rounding
  to `f` decimal places with ties away from zero (the ECMA-262 `toFixed`
  rule applied to the absolute value), ignoring binary floating-point
  representation artifacts.
* JS objects used as dictionaries are embedded as association lists in
  insertion order: a new key is appended at the end, an existing key is
  updated in place.  This matches JS enumeration order for the
  non-array-index (date/month string) keys these functions iterate over.
* `Array.prototype.sort` with a total comparator is embedded as
  `List.insertionSort` of the corresponding relation (the comparators used
  here are total preorders, and none of the verified facts depends on the
  order of comparator-equal elements).
-/

set_option linter.unusedVariables false

/-- Rounding of a rational to an integer the way JS `toFixed` rounds:
to the nearest integer, ties away from zero. -/
def jround (q : ℚ) : ℤ :=
  if 0 ≤ q then ⌊q + 1/2⌋ else -⌊-q + 1/2⌋

/-- `+x.toFixed(0)`. -/
def round0 (q : ℚ) : ℚ := jround q

/-- `+x.toFixed(1)`. -/
def round1 (q : ℚ) : ℚ := (jround (q * 10) : ℚ) / 10

/-- `+x.toFixed(2)`. -/
def round2 (q : ℚ) : ℚ := (jround (q * 100) : ℚ) / 100

/-- Arithmetic mean of a list of rationals (`sum/length`; `0` on `[]`). -/
def mean (l : List ℚ) : ℚ := l.sum / l.length

/-- `[...l].sort((a, b) => a - b)` on numbers. -/
def sortQ (l : List ℚ) : List ℚ := List.insertionSort (· ≤ ·) l

/-- `Math.min(...l)` for the nonempty lists this code applies it to. -/
def listMin : List ℚ → ℚ
  | [] => 0
  | p :: t => t.foldl min p

/-- `Math.max(...l)` for the nonempty lists this code applies it to. -/
def listMax : List ℚ → ℚ
  | [] => 0
  | p :: t => t.foldl max p

theorem jround_mono {a b : ℚ} (h : a ≤ b) : jround a ≤ jround b := by
  unfold jround
  rcases le_or_lt 0 a with ha | ha
  · rw [if_pos ha, if_pos (le_trans ha h)]
    exact Int.floor_le_floor (by linarith)
  · rw [if_neg (not_le.mpr ha)]
    rcases le_or_lt 0 b with hb | hb
    · rw [if_pos hb]
      have h1 : -⌊-a + 1/2⌋ ≤ 0 := by
        have : (0 : ℤ) ≤ ⌊-a + 1/2⌋ := Int.floor_nonneg.mpr (by linarith)
        omega
      have h2 : (0 : ℤ) ≤ ⌊b + 1/2⌋ := Int.floor_nonneg.mpr (by linarith)
      omega
    · rw [if_neg (not_le.mpr hb)]
      have : ⌊-b + 1/2⌋ ≤ ⌊-a + 1/2⌋ := Int.floor_le_floor (by linarith)
      omega

theorem round2_mono {a b : ℚ} (h : a ≤ b) : round2 a ≤ round2 b := by
  unfold round2
  have := jround_mono (show a * 100 ≤ b * 100 by linarith)
  have h2 : (jround (a * 100) : ℚ) ≤ (jround (b * 100) : ℚ) := by exact_mod_cast this
  linarith

section AssocMap

variable {α : Type} {κ : Type} {σ : Type} [DecidableEq κ]

/-- Lookup in an association list (JS property read `m[k]`). -/
def lookupA (k : κ) : List (κ × σ) → Option σ
  | [] => none
  | (k', v) :: t => if k' = k then some v else lookupA k t

/-- JS property write `m[k] = v`: update in place if present, else append. -/
def updOrApp : List (κ × σ) → κ → σ → List (κ × σ)
  | [], k, v => [(k, v)]
  | (k', v') :: t, k, v => if k' = k then (k, v) :: t else (k', v') :: updOrApp t k v

/-- One iteration of a JS `forEach` loop that may update the dictionary at
`key a`, where `g` receives the current entry (`none` when absent) and the
element, and returns the new entry (`none` means the element is skipped). -/
def mapStep (key : α → κ) (g : Option σ → α → Option σ) (m : List (κ × σ)) (a : α) :
    List (κ × σ) :=
  match g (lookupA (key a) m) a with
  | none => m
  | some s => updOrApp m (key a) s

/-- A whole `forEach` loop building a dictionary from an empty object. -/
def buildMap (key : α → κ) (g : Option σ → α → Option σ) (l : List α) : List (κ × σ) :=
  l.foldl (mapStep key g) []

/-- The effect of one loop iteration on the entry of a single tracked key. -/
def optStep (g : Option σ → α → Option σ) (o : Option σ) (a : α) : Option σ :=
  match g o a with
  | none => o
  | some s => some s

/-- Keys of an association list, in order. -/
def keysA (m : List (κ × σ)) : List κ := m.map Prod.fst

theorem lookupA_updOrApp_self (m : List (κ × σ)) (k : κ) (v : σ) :
    lookupA k (updOrApp m k v) = some v := by
  induction m with
  | nil => simp [updOrApp, lookupA]
  | cons e t ih =>
    obtain ⟨k', v'⟩ := e
    by_cases h : k' = k
    · simp [updOrApp, h, lookupA]
    · simp [updOrApp, h, lookupA, ih]

theorem lookupA_updOrApp_ne (m : List (κ × σ)) {k k' : κ} (v : σ) (h : k' ≠ k) :
    lookupA k' (updOrApp m k v) = lookupA k' m := by
  induction m with
  | nil => simp [updOrApp, lookupA, Ne.symm h]
  | cons e t ih =>
    obtain ⟨k0, v0⟩ := e
    by_cases hk : k0 = k
    · subst hk
      simp [updOrApp, lookupA, Ne.symm h]
    · simp only [updOrApp, if_neg hk, lookupA]
      by_cases hk' : k0 = k'
      · simp [hk']
      · simp [hk', ih]

theorem mem_updOrApp {m : List (κ × σ)} {k k' : κ} {v v' : σ} :
    (k', v') ∈ updOrApp m k v → (k' = k ∧ v' = v) ∨ (k', v') ∈ m := by
  induction m with
  | nil =>
    intro h
    simp only [updOrApp, List.mem_singleton, Prod.mk.injEq] at h
    exact Or.inl h
  | cons e t ih =>
    obtain ⟨k0, v0⟩ := e
    intro h
    by_cases hk : k0 = k
    · subst hk
      simp only [updOrApp, if_true] at h
      rcases List.mem_cons.mp h with h | h
      · rw [Prod.mk.injEq] at h
        exact Or.inl h
      · exact Or.inr (List.mem_cons_of_mem _ h)
    · simp only [updOrApp, if_neg hk, List.mem_cons] at h
      rcases h with h | h
      · exact Or.inr (List.mem_cons.mpr (Or.inl h))
      · rcases ih h with h' | h'
        · exact Or.inl h'
        · exact Or.inr (List.mem_cons_of_mem _ h')

theorem keysA_updOrApp_of_mem {m : List (κ × σ)} {k : κ} (v : σ) :
    k ∈ keysA m → keysA (updOrApp m k v) = keysA m := by
  induction m with
  | nil => intro h; simp [keysA] at h
  | cons e t ih =>
    obtain ⟨k0, v0⟩ := e
    intro h
    by_cases hk : k0 = k
    · simp [updOrApp, hk, keysA]
    · have ht : k ∈ keysA t := by
        simpa [keysA, Ne.symm hk, eq_comm] using h
      simp only [updOrApp, if_neg hk, keysA, List.map_cons] at ih ⊢
      rw [ih ht]

theorem keysA_updOrApp_of_not_mem {m : List (κ × σ)} {k : κ} (v : σ) :
    k ∉ keysA m → keysA (updOrApp m k v) = keysA m ++ [k] := by
  induction m with
  | nil => intro h; simp [updOrApp, keysA]
  | cons e t ih =>
    obtain ⟨k0, v0⟩ := e
    intro h
    have hk : k0 ≠ k := by
      intro hk; exact h (by simp [keysA, hk])
    have ht : k ∉ keysA t := fun hm => h (by simp [keysA] at hm ⊢; exact Or.inr hm)
    simp only [updOrApp, if_neg hk, keysA, List.map_cons] at ih ⊢
    rw [ih ht]
    simp

theorem lookupA_eq_none_of_not_mem_keys {m : List (κ × σ)} {k : κ} :
    k ∉ keysA m → lookupA k m = none := by
  induction m with
  | nil => intro h; rfl
  | cons e t ih =>
    obtain ⟨k0, v0⟩ := e
    intro h
    have hk : k0 ≠ k := fun hk => h (by simp [keysA, hk])
    have ht : k ∉ keysA t := fun hm => h (by simp [keysA] at hm ⊢; exact Or.inr hm)
    simp [lookupA, hk, ih ht]

theorem lookupA_mem {m : List (κ × σ)} {k : κ} {v : σ} :
    lookupA k m = some v → (k, v) ∈ m := by
  induction m with
  | nil => intro h; simp [lookupA] at h
  | cons e t ih =>
    obtain ⟨k0, v0⟩ := e
    intro h
    by_cases hk : k0 = k
    · subst hk
      rw [show lookupA k0 ((k0, v0) :: t) = some v0 from by simp [lookupA]] at h
      injection h with h
      subst h
      exact List.mem_cons_self _ _
    · simp only [lookupA, if_neg hk] at h
      exact List.mem_cons_of_mem _ (ih h)

theorem lookupA_of_mem_of_nodup {m : List (κ × σ)} {k : κ} {v : σ} :
    (keysA m).Nodup → (k, v) ∈ m → lookupA k m = some v := by
  induction m with
  | nil => intro _ h; simp at h
  | cons e t ih =>
    obtain ⟨k0, v0⟩ := e
    intro hn h
    simp only [keysA, List.map_cons, List.nodup_cons] at hn
    rcases List.mem_cons.mp h with h | h
    · rw [Prod.mk.injEq] at h
      obtain ⟨h1, h2⟩ := h
      subst h1; subst h2
      simp [lookupA]
    · have hk : k0 ≠ k := by
        intro hk; subst hk
        exact hn.1 (by simpa [keysA] using List.mem_map_of_mem Prod.fst h)
    -- fallthrough handled below
      rw [lookupA, if_neg hk]
      exact ih hn.2 h

theorem lookupA_mapStep_eq {key : α → κ} {g : Option σ → α → Option σ}
    (m : List (κ × σ)) (a : α) (k : κ) (hk : key a = k) :
    lookupA k (mapStep key g m a) = optStep g (lookupA k m) a := by
  subst hk
  unfold mapStep optStep
  cases hg : g (lookupA (key a) m) a with
  | none => rfl
  | some s => exact lookupA_updOrApp_self m (key a) s

theorem lookupA_mapStep_ne {key : α → κ} {g : Option σ → α → Option σ}
    (m : List (κ × σ)) (a : α) (k : κ) (hk : key a ≠ k) :
    lookupA k (mapStep key g m a) = lookupA k m := by
  unfold mapStep
  cases hg : g (lookupA (key a) m) a with
  | none => rfl
  | some s => exact lookupA_updOrApp_ne m s (Ne.symm hk)

/-- Tracking one key through a dictionary-building loop: the final entry for
`k` is the fold of the per-element updates over the elements whose key is
`k`, started from the entry in the initial dictionary. -/
theorem lookupA_foldl_mapStep (key : α → κ) (g : Option σ → α → Option σ)
    (l : List α) (m : List (κ × σ)) (k : κ) :
    lookupA k (l.foldl (mapStep key g) m) =
      (l.filter (fun a => key a = k)).foldl (optStep g) (lookupA k m) := by
  induction l generalizing m with
  | nil => rfl
  | cons a t ih =>
    rw [List.foldl_cons]
    by_cases hk : key a = k
    · rw [List.filter_cons_of_pos (by simpa using hk), List.foldl_cons,
        ih (mapStep key g m a), lookupA_mapStep_eq m a k hk]
    · rw [List.filter_cons_of_neg (by simpa using hk),
        ih (mapStep key g m a), lookupA_mapStep_ne m a k hk]

/-- Provenance: every entry of a built dictionary stems from an element of the
input list with that key on which the update function fired. -/
theorem mem_foldl_mapStep {key : α → κ} {g : Option σ → α → Option σ}
    {l : List α} {m : List (κ × σ)} {k : κ} {s : σ} :
    (k, s) ∈ l.foldl (mapStep key g) m →
      (k, s) ∈ m ∨ ∃ a ∈ l, key a = k ∧ ∃ o s', g o a = some s' := by
  induction l generalizing m with
  | nil => intro h; exact Or.inl h
  | cons a t ih =>
    intro h
    rw [List.foldl_cons] at h
    rcases ih h with h' | h'
    · unfold mapStep at h'
      cases hg : g (lookupA (key a) m) a with
      | none => rw [hg] at h'; exact Or.inl h'
      | some s0 =>
        rw [hg] at h'
        rcases mem_updOrApp h' with ⟨hk, hv⟩ | hmem
        · exact Or.inr ⟨a, List.mem_cons_self _ _, hk.symm ▸ rfl, _, s0, hg⟩
        · exact Or.inl hmem
    · obtain ⟨a', ha', hk', ho⟩ := h'
      exact Or.inr ⟨a', List.mem_cons_of_mem _ ha', hk', ho⟩

theorem keysA_nodup_mapStep {key : α → κ} {g : Option σ → α → Option σ}
    {m : List (κ × σ)} (a : α) (hn : (keysA m).Nodup) :
    (keysA (mapStep key g m a)).Nodup := by
  unfold mapStep
  cases hg : g (lookupA (key a) m) a with
  | none => exact hn
  | some s =>
    by_cases hm : key a ∈ keysA m
    · rw [keysA_updOrApp_of_mem s hm]; exact hn
    · rw [keysA_updOrApp_of_not_mem s hm]
      simpa [List.nodup_append] using ⟨hn, hm⟩

theorem keysA_nodup_foldl {key : α → κ} {g : Option σ → α → Option σ}
    (l : List α) {m : List (κ × σ)} (hn : (keysA m).Nodup) :
    (keysA (l.foldl (mapStep key g) m)).Nodup := by
  induction l generalizing m with
  | nil => exact hn
  | cons a t ih =>
    rw [List.foldl_cons]
    exact ih (keysA_nodup_mapStep a hn)

theorem keysA_nodup_buildMap (key : α → κ) (g : Option σ → α → Option σ)
    (l : List α) : (keysA (buildMap key g l)).Nodup :=
  keysA_nodup_foldl l List.nodup_nil

/-- Entries of a built dictionary are exactly what lookup reports. -/
theorem lookupA_of_mem_buildMap {key : α → κ} {g : Option σ → α → Option σ}
    {l : List α} {k : κ} {s : σ} (h : (k, s) ∈ buildMap key g l) :
    lookupA k (buildMap key g l) = some s :=
  lookupA_of_mem_of_nodup (keysA_nodup_buildMap key g l) h

/-- Lookup in a built dictionary, from an empty start. -/
theorem lookupA_buildMap (key : α → κ) (g : Option σ → α → Option σ)
    (l : List α) (k : κ) :
    lookupA k (buildMap key g l) =
      (l.filter (fun a => key a = k)).foldl (optStep g) none :=
  lookupA_foldl_mapStep key g l [] k

end AssocMap

/-- One hourly price observation (`{date, hour, price}` row).  `hour` is kept
optional because the analytics functions re-check it; `price` is `null`able. -/
structure Row where
  date : String
  hour : Option ℤ
  price : Option ℚ
deriving DecidableEq

/-- Output row of `avgPriceByHour`. -/
structure HourAvg where
  hour : ℤ
  avgPrice : ℚ
deriving DecidableEq

/-- The `hourMap` accumulation of `avgPriceByHour`: skip `null` prices, start
a `{sum, count}` cell on first sight of an hour, otherwise accumulate. -/
def hourG (o : Option (ℚ × ℕ)) (r : Row) : Option (ℚ × ℕ) :=
  match r.price with
  | none => none
  | some p =>
    match o with
    | none => some (p, 1)
    | some sc => some (sc.1 + p, sc.2 + 1)

def hourMapOf (data : List Row) : List (Option ℤ × (ℚ × ℕ)) :=
  buildMap (fun r => r.hour) hourG data

/-- `avgPriceByHour` from `dataLoader.js` (lines 104–120): group non-null
prices by `row.hour`, then emit exactly the 24 slots for hours 1..24,
with `avgPrice 0` for an hour with no entry. -/
def avgPriceByHour (data : List Row) : List HourAvg :=
  (List.range 24).map (fun (i : ℕ) =>
    let h : ℤ := (i : ℤ) + 1
    match lookupA (some h) (hourMapOf data) with
    | none => { hour := h, avgPrice := 0 }
    | some sc => { hour := h, avgPrice := round2 (sc.1 / (sc.2 : ℚ)) })

/-- Specification-side helper: the non-null prices observed at hour `h`. -/
def hourPrices (data : List Row) (h : ℤ) : List ℚ :=
  data.filterMap (fun r => if r.hour = some h then r.price else none)

def accOf (o : Option (ℚ × ℕ)) : ℚ × ℕ := o.getD (0, 0)

theorem hourPrices_eq_filter (data : List Row) (h : ℤ) :
    hourPrices data h =
      (data.filter (fun r => r.hour = some h)).filterMap (fun r => r.price) := by
  induction data with
  | nil => rfl
  | cons r t ih =>
    by_cases hr : r.hour = some h
    · rw [hourPrices, List.filterMap_cons, List.filter_cons_of_pos (by simpa using hr),
        List.filterMap_cons]
      rw [if_pos hr]
      cases r.price <;> simp [hourPrices] at ih ⊢ <;> exact ih
    · rw [hourPrices, List.filterMap_cons, List.filter_cons_of_neg (by simpa using hr)]
      rw [if_neg hr]
      exact ih

theorem foldl_optStep_hourG (l : List Row) (o : Option (ℚ × ℕ)) :
    l.foldl (optStep hourG) o =
      if l.filterMap (fun r => r.price) = [] then o
      else some ((accOf o).1 + (l.filterMap (fun r => r.price)).sum,
                 (accOf o).2 + (l.filterMap (fun r => r.price)).length) := by
  induction l generalizing o with
  | nil => simp
  | cons r t ih =>
    rw [List.foldl_cons, List.filterMap_cons]
    cases hp : r.price with
    | none =>
      have hstep : optStep hourG o r = o := by
        unfold optStep hourG
        rw [hp]
      rw [hstep, ih o]
    | some p =>
      have hstep : optStep hourG o r = some ((accOf o).1 + p, (accOf o).2 + 1) := by
        unfold optStep hourG
        rw [hp]
        cases o with
        | none => simp [accOf]
        | some sc => simp [accOf]
      rw [hstep, ih]
      cases hts : t.filterMap (fun r => r.price) with
      | nil => simp [accOf]
      | cons q qs =>
        simp only [if_neg (by simp : ¬ q :: qs = []),
          if_neg (by simp : ¬ p :: q :: qs = []), accOf, Option.getD_some]
        rw [Option.some.injEq, Prod.mk.injEq]
        constructor
        · simp [List.sum_cons]; ring
        · simp [List.length_cons]; omega

/-- Entry of the hour map = sum/count of that hour's non-null prices. -/
theorem lookupA_hourMapOf (data : List Row) (h : Option ℤ) :
    lookupA h (hourMapOf data) =
      if (data.filter (fun r => r.hour = h)).filterMap (fun r => r.price) = [] then none
      else some (((data.filter (fun r => r.hour = h)).filterMap (fun r => r.price)).sum,
                 ((data.filter (fun r => r.hour = h)).filterMap (fun r => r.price)).length) := by
  rw [hourMapOf, lookupA_buildMap, foldl_optStep_hourG]
  simp [accOf]

/-- `avgPriceByHour` computes, slot by slot, the rounded mean of the non-null
prices at each hour 1..24 (`0` when the hour has no non-null price). -/
theorem avgPriceByHour_spec (data : List Row) :
    avgPriceByHour data = (List.range 24).map (fun (i : ℕ) =>
      let h : ℤ := (i : ℤ) + 1
      if hourPrices data h = [] then { hour := h, avgPrice := 0 }
      else { hour := h, avgPrice := round2 (mean (hourPrices data h)) }) := by
  unfold avgPriceByHour
  apply List.map_congr_left
  intro i _
  dsimp only
  rw [lookupA_hourMapOf data (some ((i : ℤ) + 1)), hourPrices_eq_filter]
  by_cases hps : (data.filter (fun r => r.hour = some ((i : ℤ) + 1))).filterMap
      (fun r => r.price) = []
  · rw [if_pos hps, if_pos hps]
  · rw [if_neg hps, if_neg hps]
    rfl

/-- A row whose `hour` is a delivery hour in 1..24. -/
def hourInRange (r : Row) : Bool :=
  match r.hour with
  | some h => decide (1 ≤ h ∧ h ≤ 24)
  | none => false

theorem hourPrices_filter_inRange (data : List Row) (h : ℤ) (h1 : 1 ≤ h) (h2 : h ≤ 24) :
    hourPrices (data.filter hourInRange) h = hourPrices data h := by
  induction data with
  | nil => rfl
  | cons r t ih =>
    cases hr : hourInRange r with
    | true =>
      rw [List.filter_cons_of_pos hr]
      show List.filterMap (fun r => if r.hour = some h then r.price else none)
          (r :: List.filter hourInRange t) =
        List.filterMap (fun r => if r.hour = some h then r.price else none) (r :: t)
      rw [List.filterMap_cons, List.filterMap_cons,
        show List.filterMap (fun r => if r.hour = some h then r.price else none)
            (List.filter hourInRange t) =
          List.filterMap (fun r => if r.hour = some h then r.price else none) t from ih]
    | false =>
      have hne : (if r.hour = some h then r.price else none) = none := by
        rw [if_neg]
        intro heq
        rw [hourInRange, heq] at hr
        simp at hr
        omega
      rw [List.filter_cons_of_neg (by simp [hr]), ih]
      show List.filterMap (fun r => if r.hour = some h then r.price else none) t =
        List.filterMap (fun r => if r.hour = some h then r.price else none) (r :: t)
      rw [List.filterMap_cons, hne]

/-- C6: for every input list of price observations (including the empty list
and lists with missing hours), `avgPriceByHour` returns exactly 24 rows, one
per hour 1..24 in ascending order; a row for an hour with at least one
non-null price carries the mean of those prices rounded to 2 decimals, and a
row for an hour with no non-null price carries `avgPrice 0`. -/
theorem avgPriceByHour_grouping_complete :
    ∀ data : List Row,
      (avgPriceByHour data).length = 24 ∧
      avgPriceByHour data = (List.range 24).map (fun (i : ℕ) =>
        let h : ℤ := (i : ℤ) + 1
        if hourPrices data h = [] then { hour := h, avgPrice := 0 }
        else { hour := h, avgPrice := round2 (mean (hourPrices data h)) }) := by
  intro data
  refine ⟨?_, avgPriceByHour_spec data⟩
  rw [avgPriceByHour_spec data, List.length_map, List.length_range]

/-- C10: observations whose hour lies outside 1..24 (hour-25 DST rows, null
hours, any other value) contribute to no output row of `avgPriceByHour`
— restricting the input to in-range rows leaves the output unchanged — and
every output row's hour lies in 1..24. -/
theorem avgPriceByHour_ignores_out_of_range_hours :
    ∀ data : List Row,
      avgPriceByHour (data.filter hourInRange) = avgPriceByHour data ∧
      ∀ row ∈ avgPriceByHour data, 1 ≤ row.hour ∧ row.hour ≤ 24 := by
  intro data
  constructor
  · rw [avgPriceByHour_spec, avgPriceByHour_spec]
    apply List.map_congr_left
    intro i hi
    rw [List.mem_range] at hi
    dsimp only
    rw [hourPrices_filter_inRange data ((i : ℤ) + 1) (by omega)
      (by exact_mod_cast Nat.succ_le_of_lt (by omega))]
  · intro row hrow
    rw [avgPriceByHour_spec] at hrow
    rcases List.mem_map.mp hrow with ⟨i, hi, hrfl⟩
    rw [List.mem_range] at hi
    dsimp only at hrfl
    have hh : row.hour = (i : ℤ) + 1 := by
      by_cases hps : hourPrices data ((i : ℤ) + 1) = []
      · rw [if_pos hps] at hrfl
        rw [← hrfl]
      · rw [if_neg hps] at hrfl
        rw [← hrfl]
    rw [hh]
    omega

/-- Witness for C10 at a concrete input: the output-row-hour bounds at the
first slot of the empty input. -/
theorem avgPriceByHour_ignores_out_of_range_hours_witness :
    1 ≤ (HourAvg.mk 1 0).hour ∧ (HourAvg.mk 1 0).hour ≤ 24 :=
  (avgPriceByHour_ignores_out_of_range_hours []).2 (HourAvg.mk 1 0) (by decide)

/-- A conditional `filterMap` is a `filter` followed by a `filterMap`. -/
theorem filterMap_if_eq_filter {α β : Type} (P : α → Prop) [DecidablePred P]
    (f : α → Option β) (data : List α) :
    data.filterMap (fun a => if P a then f a else none) =
      (data.filter (fun a => P a)).filterMap f := by
  induction data with
  | nil => rfl
  | cons a t ih =>
    by_cases hP : P a
    · rw [List.filterMap_cons, if_pos hP,
        List.filter_cons_of_pos (by simpa using hP), List.filterMap_cons, ih]
    · rw [List.filterMap_cons, if_neg hP,
        List.filter_cons_of_neg (by simpa using hP), ih]

/-- One daily gas price observation (`{date, price}` row). -/
structure GasRow where
  date : String
  price : Option ℚ
deriving DecidableEq

/-- Output row of `computeSparkSpread`. -/
structure SparkRow where
  date : String
  gasHeatCost : ℚ
  gasPrice : ℚ
  elecSmartAvg : ℚ
  elecFullAvg : ℚ
  sparkSpread : ℚ
deriving DecidableEq

/-- The `elecByDay` accumulation of `computeSparkSpread`: skip `null` prices,
push the price onto the day's list. -/
def elecG (o : Option (List ℚ)) (r : Row) : Option (List ℚ) :=
  match r.price with
  | none => none
  | some p => some (o.getD [] ++ [p])

def elecByDayOf (damData : List Row) : List (String × List ℚ) :=
  buildMap (fun r => r.date) elecG damData

/-- The `gasMap` accumulation of `computeSparkSpread`: a non-null price
overwrites the day's entry (last write wins). -/
def gasG (o : Option ℚ) (r : GasRow) : Option ℚ := r.price

def gasMapOf (gasData : List GasRow) : List (String × ℚ) :=
  buildMap (fun r : GasRow => r.date) gasG gasData

/-- The record pushed for one date by `computeSparkSpread` (lines 296–314):
retail adder 40 for EUR (1000 otherwise), cheapest-8 average over the
ascending-sorted day prices, heat cost `(gas + adder) / 0.9`. -/
def sparkRowOf (currency : String) (g : ℚ) (date : String) (prices : List ℚ) : SparkRow :=
  let retailAdder : ℚ := if currency = "eur" then 40 else 1000
  let cheapest := (sortQ prices).take 8
  let avgCheap := mean cheapest
  let avgAll := mean prices
  let gasHeatCost := (g + retailAdder) / (9 / 10)
  { date := date, gasHeatCost := round2 gasHeatCost, gasPrice := round2 g,
    elecSmartAvg := round2 avgCheap, elecFullAvg := round2 avgAll,
    sparkSpread := round2 (gasHeatCost - avgCheap) }

/-- `computeSparkSpread` from `dataLoader.js` (lines 275–317): group non-null
day-ahead prices by date, index non-null gas prices by date, emit one row per
date with both, sorted by date. -/
def computeSparkSpread (damData : List Row) (gasData : List GasRow)
    (currency : String) : List SparkRow :=
  List.insertionSort (fun a b => a.date ≤ b.date)
    ((elecByDayOf damData).filterMap (fun e =>
      match lookupA e.1 (gasMapOf gasData) with
      | none => none
      | some g => some (sparkRowOf currency g e.1 e.2)))

/-- Specification-side helper: the non-null day-ahead prices of one date, in
input order. -/
def dayPrices (data : List Row) (d : String) : List ℚ :=
  data.filterMap (fun r => if r.date = d then r.price else none)

/-- Specification-side helper: the last non-null gas price reported for a
date (the value the `gasMap` lookup retains). -/
def lastGasPrice (gasData : List GasRow) (d : String) : Option ℚ :=
  (gasData.filterMap (fun r => if r.date = d then r.price else none)).getLast?

theorem foldl_optStep_elecG (l : List Row) (o : Option (List ℚ)) :
    l.foldl (optStep elecG) o =
      if l.filterMap (fun r => r.price) = [] then o
      else some (o.getD [] ++ l.filterMap (fun r => r.price)) := by
  induction l generalizing o with
  | nil => simp
  | cons r t ih =>
    rw [List.foldl_cons, List.filterMap_cons]
    cases hp : r.price with
    | none =>
      have hstep : optStep elecG o r = o := by
        unfold optStep elecG
        rw [hp]
      rw [hstep, ih o]
    | some p =>
      have hstep : optStep elecG o r = some (o.getD [] ++ [p]) := by
        unfold optStep elecG
        rw [hp]
      rw [hstep, ih]
      cases hts : t.filterMap (fun r => r.price) with
      | nil => simp
      | cons q qs =>
        simp only [if_neg (by simp : ¬ q :: qs = []),
          if_neg (by simp : ¬ p :: q :: qs = []), Option.getD_some]
        rw [List.append_assoc]
        rfl

/-- Entry of `elecByDay` = that date's non-null prices, in order. -/
theorem lookupA_elecByDayOf (damData : List Row) (d : String) :
    lookupA d (elecByDayOf damData) =
      if dayPrices damData d = [] then none else some (dayPrices damData d) := by
  rw [elecByDayOf, lookupA_buildMap, foldl_optStep_elecG, dayPrices,
    filterMap_if_eq_filter (fun r : Row => r.date = d) (fun r => r.price) damData]
  simp

theorem getLast?_or_shift {β : Type} (ps : List β) (p : β) (o : Option β) :
    (p :: ps).getLast?.or o = ps.getLast?.or (some p) := by
  cases ps with
  | nil => simp
  | cons q qs =>
    rw [List.getLast?_cons_cons]
    obtain ⟨x, hx⟩ := Option.isSome_iff_exists.mp
      (List.getLast?_isSome.mpr (by simp : q :: qs ≠ []))
    rw [hx]
    rfl

theorem foldl_optStep_gasG (l : List GasRow) (o : Option ℚ) :
    l.foldl (optStep gasG) o = (l.filterMap (fun r => r.price)).getLast?.or o := by
  induction l generalizing o with
  | nil => simp
  | cons r t ih =>
    rw [List.foldl_cons, List.filterMap_cons]
    cases hp : r.price with
    | none =>
      have hstep : optStep gasG o r = o := by
        unfold optStep gasG
        rw [hp]
      rw [hstep, ih o]
    | some p =>
      have hstep : optStep gasG o r = some p := by
        unfold optStep gasG
        rw [hp]
      rw [hstep, ih, getLast?_or_shift]

/-- Entry of `gasMap` = the last non-null gas price of the date. -/
theorem lookupA_gasMapOf (gasData : List GasRow) (d : String) :
    lookupA d (gasMapOf gasData) = lastGasPrice gasData d := by
  rw [gasMapOf, lookupA_buildMap, foldl_optStep_gasG, lastGasPrice,
    filterMap_if_eq_filter (fun r : GasRow => r.date = d) (fun r => r.price) gasData]
  simp

/-- C1: every row `computeSparkSpread` emits (for a date with at least one
non-null day-ahead price and a non-null gas price) satisfies
`gasHeatCost = round2 ((gas + 40) / 0.9)` for currency `"eur"`
(`retailAdder = 40`, boiler efficiency `0.9`) and
`sparkSpread = round2 (gasHeatCost − mean of the cheapest 8 (or all, if
fewer) hourly prices)`; concretely, gas price 50 with a single hourly price
30 yields `gasHeatCost = 100` and `sparkSpread = 70`. -/
theorem computeSparkSpread_gas_heat_model :
    (∀ (damData : List Row) (gasData : List GasRow) (row : SparkRow),
      row ∈ computeSparkSpread damData gasData "eur" →
      ∃ g, lastGasPrice gasData row.date = some g ∧
        dayPrices damData row.date ≠ [] ∧
        row.gasHeatCost = round2 ((g + 40) / (9 / 10)) ∧
        row.sparkSpread = round2 ((g + 40) / (9 / 10) -
          mean ((sortQ (dayPrices damData row.date)).take 8))) ∧
    computeSparkSpread [⟨"2025-01-01", some 1, some 30⟩]
        [⟨"2025-01-01", some 50⟩] "eur" =
      [⟨"2025-01-01", 100, 50, 30, 30, 70⟩] := by
  constructor
  · intro damData gasData row hrow
    rw [computeSparkSpread,
      (List.perm_insertionSort (fun a b : SparkRow => a.date ≤ b.date) _).mem_iff] at hrow
    rcases List.mem_filterMap.mp hrow with ⟨e, he, heq⟩
    cases hg : lookupA e.1 (gasMapOf gasData) with
    | none => rw [hg] at heq; exact absurd heq (by simp)
    | some g =>
      rw [hg] at heq
      have hrw : sparkRowOf "eur" g e.1 e.2 = row := by
        injection heq
      have hl : lookupA e.1 (elecByDayOf damData) = some e.2 :=
        lookupA_of_mem_buildMap he
      rw [lookupA_elecByDayOf] at hl
      by_cases hd : dayPrices damData e.1 = []
      · rw [if_pos hd] at hl
        exact absurd hl (by simp)
      · rw [if_neg hd] at hl
        have he2 : e.2 = dayPrices damData e.1 := by
          injection hl with hl
          exact hl.symm
        subst hrw
        refine ⟨g, ?_, ?_, ?_, ?_⟩
        · show lastGasPrice gasData e.1 = some g
          rw [← lookupA_gasMapOf]
          exact hg
        · show ¬ dayPrices damData e.1 = []
          exact hd
        · show round2 ((g + if ("eur" : String) = "eur" then 40 else 1000) / (9 / 10)) =
            round2 ((g + 40) / (9 / 10))
          rw [if_pos rfl]
        · show round2 ((g + if ("eur" : String) = "eur" then 40 else 1000) / (9 / 10) -
              mean ((sortQ e.2).take 8)) =
            round2 ((g + 40) / (9 / 10) - mean ((sortQ (dayPrices damData e.1)).take 8))
          rw [if_pos rfl, he2]
  · norm_num [computeSparkSpread, elecByDayOf, gasMapOf, buildMap, mapStep, elecG,
      gasG, lookupA, updOrApp, List.insertionSort, sparkRowOf, sortQ, mean,
      round2, jround, SparkRow.mk.injEq]

/-- Witness for C1 at the concrete scenario of the claim. -/
theorem computeSparkSpread_gas_heat_model_witness :
    ∃ g, lastGasPrice [GasRow.mk "2025-01-01" (some 50)]
        (SparkRow.mk "2025-01-01" 100 50 30 30 70).date = some g ∧
      dayPrices [Row.mk "2025-01-01" (some 1) (some 30)]
        (SparkRow.mk "2025-01-01" 100 50 30 30 70).date ≠ [] ∧
      (SparkRow.mk "2025-01-01" 100 50 30 30 70).gasHeatCost =
        round2 ((g + 40) / (9 / 10)) ∧
      (SparkRow.mk "2025-01-01" 100 50 30 30 70).sparkSpread =
        round2 ((g + 40) / (9 / 10) -
          mean ((sortQ (dayPrices [Row.mk "2025-01-01" (some 1) (some 30)]
            (SparkRow.mk "2025-01-01" 100 50 30 30 70).date)).take 8)) :=
  computeSparkSpread_gas_heat_model.1 [Row.mk "2025-01-01" (some 1) (some 30)]
    [GasRow.mk "2025-01-01" (some 50)] (SparkRow.mk "2025-01-01" 100 50 30 30 70)
    (by rw [computeSparkSpread_gas_heat_model.2]
        exact List.mem_singleton.mpr rfl)

/-- Output row of `damVsImSpread`. -/
structure SpreadRow where
  date : String
  damAvg : ℚ
  imAvg : ℚ
  spread : ℚ
deriving DecidableEq

/-- Per-day accumulator of `damVsImSpread` (`{damSum, damCount, imSum,
imCount}`). -/
structure DayAcc where
  damSum : ℚ
  damCount : ℕ
  imSum : ℚ
  imCount : ℕ
deriving DecidableEq

/-- `damMap`/`imMap` accumulation of `damVsImSpread`: a non-null price is
written under the `(date, hour)` key, last write wins. -/
def priceG (o : Option ℚ) (r : Row) : Option ℚ := r.price

/-- The `(date, hour)` key.  The JS code uses the string key
`` `${date}-${hour}` `` and recovers the date by
`split('-').slice(0, 3).join('-')`; for the documented ISO `YYYY-MM-DD`
dates this is exactly the pair key with first projection, which is how we
model it. -/
def hourKey (r : Row) : String × Option ℤ := (r.date, r.hour)

def hourPriceMapOf (data : List Row) : List ((String × Option ℤ) × ℚ) :=
  buildMap hourKey priceG data

/-- The `dayData` accumulation of `damVsImSpread`: iterate the `damMap`
entries, always add the DAM price, and also add the IM price when the
`imMap` holds the same `(date, hour)` key. -/
def ddG (imMap : List ((String × Option ℤ) × ℚ)) (o : Option DayAcc)
    (e : (String × Option ℤ) × ℚ) : Option DayAcc :=
  let q := o.getD ⟨0, 0, 0, 0⟩
  match lookupA e.1 imMap with
  | none => some ⟨q.damSum + e.2, q.damCount + 1, q.imSum, q.imCount⟩
  | some ip => some ⟨q.damSum + e.2, q.damCount + 1, q.imSum + ip, q.imCount + 1⟩

def dayDataOf (damData imData : List Row) : List (String × DayAcc) :=
  buildMap (fun e => e.1.1) (ddG (hourPriceMapOf imData)) (hourPriceMapOf damData)

/-- `damVsImSpread` from `dataLoader.js` (lines 432–466): per-hour lookup
maps for both datasets, per-day sums over the DAM keys, emit only days with
both counts positive, sorted by date. -/
def damVsImSpread (damData imData : List Row) : List SpreadRow :=
  List.insertionSort (fun a b => a.date ≤ b.date)
    ((dayDataOf damData imData).filterMap (fun e =>
      if 0 < e.2.damCount ∧ 0 < e.2.imCount then
        some ⟨e.1, round2 (e.2.damSum / (e.2.damCount : ℚ)),
              round2 (e.2.imSum / (e.2.imCount : ℚ)),
              round2 (e.2.imSum / (e.2.imCount : ℚ) - e.2.damSum / (e.2.damCount : ℚ))⟩
      else none))

/-- Specification-side helper: the deduplicated day-ahead prices of date `d`
(the values the `damMap` retains for that date, one per distinct hour). -/
def damVals (damData : List Row) (d : String) : List ℚ :=
  ((hourPriceMapOf damData).filter (fun e => e.1.1 = d)).map (fun e => e.2)

/-- Specification-side helper: the intraday prices of date `d` at hours that
also carry a day-ahead price (the values the join actually averages). -/
def imVals (damData imData : List Row) (d : String) : List ℚ :=
  ((hourPriceMapOf damData).filter (fun e => e.1.1 = d)).filterMap
    (fun e => lookupA e.1 (hourPriceMapOf imData))

def zeroDayAcc : DayAcc := ⟨0, 0, 0, 0⟩

theorem foldl_optStep_ddG (imMap : List ((String × Option ℤ) × ℚ))
    (l : List ((String × Option ℤ) × ℚ)) (o : Option DayAcc) :
    l.foldl (optStep (ddG imMap)) o =
      if l = [] then o
      else some ⟨(o.getD zeroDayAcc).damSum + (l.map (fun e => e.2)).sum,
                 (o.getD zeroDayAcc).damCount + l.length,
                 (o.getD zeroDayAcc).imSum +
                   (l.filterMap (fun e => lookupA e.1 imMap)).sum,
                 (o.getD zeroDayAcc).imCount +
                   (l.filterMap (fun e => lookupA e.1 imMap)).length⟩ := by
  induction l generalizing o with
  | nil => simp
  | cons e t ih =>
    rw [List.foldl_cons, List.filterMap_cons]
    cases him : lookupA e.1 imMap with
    | none =>
      have hstep : optStep (ddG imMap) o e =
          some ⟨(o.getD zeroDayAcc).damSum + e.2, (o.getD zeroDayAcc).damCount + 1,
                (o.getD zeroDayAcc).imSum, (o.getD zeroDayAcc).imCount⟩ := by
        unfold optStep ddG
        rw [him]
        rfl
      rw [hstep, ih]
      by_cases ht : t = []
      · subst ht
        simp [zeroDayAcc]
      · rw [if_neg ht, if_neg (by simp : ¬ e :: t = [])]
        rw [Option.some.injEq, DayAcc.mk.injEq]
        refine ⟨?_, ?_, ?_, ?_⟩ <;> simp <;> ring_nf
    | some ip =>
      have hstep : optStep (ddG imMap) o e =
          some ⟨(o.getD zeroDayAcc).damSum + e.2, (o.getD zeroDayAcc).damCount + 1,
                (o.getD zeroDayAcc).imSum + ip, (o.getD zeroDayAcc).imCount + 1⟩ := by
        unfold optStep ddG
        rw [him]
        rfl
      rw [hstep, ih]
      by_cases ht : t = []
      · subst ht
        simp [zeroDayAcc]
      · rw [if_neg ht, if_neg (by simp : ¬ e :: t = [])]
        rw [Option.some.injEq, DayAcc.mk.injEq]
        refine ⟨?_, ?_, ?_, ?_⟩ <;> simp <;> ring_nf

/-- Entry of `dayData` = sums and counts of the per-day DAM values and the
matched IM values. -/
theorem lookupA_dayDataOf (damData imData : List Row) (d : String) :
    lookupA d (dayDataOf damData imData) =
      if (hourPriceMapOf damData).filter (fun e => e.1.1 = d) = [] then none
      else some ⟨(damVals damData d).sum, (damVals damData d).length,
                 (imVals damData imData d).sum, (imVals damData imData d).length⟩ := by
  rw [dayDataOf, lookupA_buildMap, foldl_optStep_ddG]
  by_cases hf : (hourPriceMapOf damData).filter (fun e => e.1.1 = d) = []
  · rw [if_pos hf, if_pos hf]
  · rw [if_neg hf, if_neg hf]
    rw [Option.some.injEq, DayAcc.mk.injEq]
    refine ⟨?_, ?_, ?_, ?_⟩ <;>
      simp [zeroDayAcc, damVals, imVals]

/-- Decompose membership in `damVsImSpread`'s output into the `dayData`
entry it came from. -/
theorem damVsImSpread_mem_elim {damData imData : List Row} {row : SpreadRow}
    (hrow : row ∈ damVsImSpread damData imData) :
    damVals damData row.date ≠ [] ∧
    imVals damData imData row.date ≠ [] ∧
    row.damAvg = round2 (mean (damVals damData row.date)) ∧
    row.imAvg = round2 (mean (imVals damData imData row.date)) ∧
    row.spread = round2 (mean (imVals damData imData row.date) -
      mean (damVals damData row.date)) := by
  rw [damVsImSpread,
    (List.perm_insertionSort (fun a b : SpreadRow => a.date ≤ b.date) _).mem_iff] at hrow
  rcases List.mem_filterMap.mp hrow with ⟨e, he, heq⟩
  by_cases hc : 0 < e.2.damCount ∧ 0 < e.2.imCount
  · rw [if_pos hc] at heq
    have hrw : (⟨e.1, round2 (e.2.damSum / (e.2.damCount : ℚ)),
        round2 (e.2.imSum / (e.2.imCount : ℚ)),
        round2 (e.2.imSum / (e.2.imCount : ℚ) - e.2.damSum / (e.2.damCount : ℚ))⟩ :
        SpreadRow) = row := by
      injection heq
    have hl : lookupA e.1 (dayDataOf damData imData) = some e.2 :=
      lookupA_of_mem_buildMap he
    rw [lookupA_dayDataOf] at hl
    by_cases hf : (hourPriceMapOf damData).filter (fun x => x.1.1 = e.1) = []
    · rw [if_pos hf] at hl
      exact absurd hl (by simp)
    · rw [if_neg hf] at hl
      have hacc : e.2 = ⟨(damVals damData e.1).sum, (damVals damData e.1).length,
          (imVals damData imData e.1).sum, (imVals damData imData e.1).length⟩ := by
        injection hl with hl
        exact hl.symm
      subst hrw
      have hdam : damVals damData e.1 ≠ [] := by
        intro hnil
        rw [hacc] at hc
        rw [hnil] at hc
        simp at hc
      have him : imVals damData imData e.1 ≠ [] := by
        intro hnil
        rw [hacc] at hc
        rw [hnil] at hc
        simp at hc
      refine ⟨hdam, him, ?_, ?_, ?_⟩ <;>
        rw [show (⟨e.1, round2 (e.2.damSum / (e.2.damCount : ℚ)),
            round2 (e.2.imSum / (e.2.imCount : ℚ)),
            round2 (e.2.imSum / (e.2.imCount : ℚ) - e.2.damSum / (e.2.damCount : ℚ))⟩ :
            SpreadRow).date = e.1 from rfl, hacc] <;> rfl
  · rw [if_neg hc] at heq
    exact absurd heq (by simp)

/-- C3 (amended): for every emitted row, `damAvg` is the rounded mean of the
per-`(date,hour)` deduplicated day-ahead prices of that date, `imAvg` is the
rounded mean of the intraday prices at hours that also carry a day-ahead
price, and `spread` is the rounded difference of the unrounded means. -/
theorem damVsImSpread_daily_means :
    ∀ (damData imData : List Row) (row : SpreadRow),
      row ∈ damVsImSpread damData imData →
      damVals damData row.date ≠ [] ∧
      imVals damData imData row.date ≠ [] ∧
      row.damAvg = round2 (mean (damVals damData row.date)) ∧
      row.imAvg = round2 (mean (imVals damData imData row.date)) ∧
      row.spread = round2 (mean (imVals damData imData row.date) -
        mean (damVals damData row.date)) :=
  fun _ _ _ hrow => damVsImSpread_mem_elim hrow

/-- C3 counterexample: with one day-ahead hour and two intraday hours on the
same date, the emitted `imAvg` is `5` (only the matched hour counts), not
the rounded mean `52.5` of all of that date's non-null intraday prices, so
the claim as stated (means over all of the date's prices) is false. -/
theorem damVsImSpread_daily_means_counterexample :
    damVsImSpread [Row.mk "2025-01-01" (some 1) (some 10)]
        [Row.mk "2025-01-01" (some 1) (some 5), Row.mk "2025-01-01" (some 2) (some 100)] =
      [SpreadRow.mk "2025-01-01" 10 5 (-5)] ∧
    dayPrices [Row.mk "2025-01-01" (some 1) (some 5),
        Row.mk "2025-01-01" (some 2) (some 100)] "2025-01-01" = [5, 100] ∧
    round2 (mean [5, 100]) = 105 / 2 ∧
    (5 : ℚ) ≠ 105 / 2 := by
  refine ⟨?_, ?_, ?_, by norm_num⟩
  · norm_num [damVsImSpread, dayDataOf, hourPriceMapOf, buildMap, mapStep, ddG,
      priceG, hourKey, lookupA, updOrApp, List.insertionSort, round2, jround,
      SpreadRow.mk.injEq, zeroDayAcc, optStep]
  · norm_num [dayPrices, List.filterMap_cons]
  · norm_num [round2, jround, mean]

/-- C5: `damVsImSpread` never emits a row for a date present (with a
non-null price) in only one input: every emitted row's date has at least one
non-null price in both the day-ahead and the intraday input. -/
theorem damVsImSpread_join_exclusive :
    ∀ (damData imData : List Row) (row : SpreadRow),
      row ∈ damVsImSpread damData imData →
      (∃ r ∈ damData, r.date = row.date ∧ r.price ≠ none) ∧
      (∃ r ∈ imData, r.date = row.date ∧ r.price ≠ none) := by
  intro damData imData row hrow
  obtain ⟨hdam, him, -, -, -⟩ := damVsImSpread_mem_elim hrow
  constructor
  · obtain ⟨p, hp⟩ := List.exists_mem_of_ne_nil _ hdam
    rcases List.mem_map.mp hp with ⟨e, hef, hep⟩
    have hed : e.1.1 = row.date := by
      have := List.of_mem_filter hef
      simpa using this
    have hem : e ∈ hourPriceMapOf damData := List.mem_of_mem_filter hef
    have hprov := mem_foldl_mapStep (m := []) (show (e.1, e.2) ∈ _ from hem)
    rcases hprov with h | ⟨r, hr, hkey, o, s, hfire⟩
    · simp at h
    · refine ⟨r, hr, ?_, ?_⟩
      · rw [← hed, ← hkey]
        rfl
      · intro hnone
        rw [show priceG o r = r.price from rfl, hnone] at hfire
        exact absurd hfire (by simp)
  · obtain ⟨p, hp⟩ := List.exists_mem_of_ne_nil _ him
    rcases List.mem_filterMap.mp hp with ⟨e, hef, hlook⟩
    have hed : e.1.1 = row.date := by
      have := List.of_mem_filter hef
      simpa using this
    have hmem : (e.1, p) ∈ hourPriceMapOf imData := lookupA_mem hlook
    have hprov := mem_foldl_mapStep (m := []) hmem
    rcases hprov with h | ⟨r, hr, hkey, o, s, hfire⟩
    · simp at h
    · refine ⟨r, hr, ?_, ?_⟩
      · rw [← hed, ← hkey]
        rfl
      · intro hnone
        rw [show priceG o r = r.price from rfl, hnone] at hfire
        exact absurd hfire (by simp)

/-- Witness for C3 at a concrete matched input. -/
theorem damVsImSpread_daily_means_witness :
    damVals [Row.mk "2025-01-02" (some 1) (some 10)]
        (SpreadRow.mk "2025-01-02" 10 6 (-4)).date ≠ [] ∧
    imVals [Row.mk "2025-01-02" (some 1) (some 10)]
        [Row.mk "2025-01-02" (some 1) (some 6)]
        (SpreadRow.mk "2025-01-02" 10 6 (-4)).date ≠ [] ∧
    (SpreadRow.mk "2025-01-02" 10 6 (-4)).damAvg =
      round2 (mean (damVals [Row.mk "2025-01-02" (some 1) (some 10)]
        (SpreadRow.mk "2025-01-02" 10 6 (-4)).date)) ∧
    (SpreadRow.mk "2025-01-02" 10 6 (-4)).imAvg =
      round2 (mean (imVals [Row.mk "2025-01-02" (some 1) (some 10)]
        [Row.mk "2025-01-02" (some 1) (some 6)]
        (SpreadRow.mk "2025-01-02" 10 6 (-4)).date)) ∧
    (SpreadRow.mk "2025-01-02" 10 6 (-4)).spread =
      round2 (mean (imVals [Row.mk "2025-01-02" (some 1) (some 10)]
          [Row.mk "2025-01-02" (some 1) (some 6)]
          (SpreadRow.mk "2025-01-02" 10 6 (-4)).date) -
        mean (damVals [Row.mk "2025-01-02" (some 1) (some 10)]
          (SpreadRow.mk "2025-01-02" 10 6 (-4)).date)) :=
  damVsImSpread_daily_means [Row.mk "2025-01-02" (some 1) (some 10)]
    [Row.mk "2025-01-02" (some 1) (some 6)] (SpreadRow.mk "2025-01-02" 10 6 (-4))
    (by norm_num [damVsImSpread, dayDataOf, hourPriceMapOf, buildMap, mapStep, ddG,
      priceG, hourKey, lookupA, updOrApp, List.insertionSort, round2, jround,
      zeroDayAcc, optStep])

/-- One regulation-energy observation (`{date, hour, volume_mwh, cost}`). -/
structure RegRow where
  date : String
  hour : Option ℤ
  volume_mwh : Option ℚ
  cost : Option ℚ
deriving DecidableEq

/-- Per-month accumulator of `monthlySVRRevenue`. -/
structure SVRAcc where
  totalVolume : ℚ
  revenue : ℚ
  expense : ℚ
deriving DecidableEq

/-- Output row of `monthlySVRRevenue`. -/
structure SVRRow where
  month : String
  totalVolume : ℚ
  revenue : ℚ
  expense : ℚ
  netRevenue : ℚ
  avgPrice : ℚ
deriving DecidableEq

/-- The month key `row.date.substring(0, 7)`. -/
def monthOf (r : RegRow) : String := r.date.take 7

/-- The per-month accumulation of `monthlySVRRevenue`: the entry is created
unconditionally; `|volume|` accumulates when the volume is non-null; a
negative cost adds `|cost|` to revenue, a non-negative one adds to expense. -/
def svrG (o : Option SVRAcc) (r : RegRow) : Option SVRAcc :=
  let q := o.getD ⟨0, 0, 0⟩
  let q1 : SVRAcc :=
    match r.volume_mwh with
    | none => q
    | some v => ⟨q.totalVolume + |v|, q.revenue, q.expense⟩
  some (match r.cost with
    | none => q1
    | some c =>
      if c < 0 then ⟨q1.totalVolume, q1.revenue + |c|, q1.expense⟩
      else ⟨q1.totalVolume, q1.revenue, q1.expense + c⟩)

def svrMapOf (data : List RegRow) : List (String × SVRAcc) :=
  buildMap monthOf svrG data

/-- `monthlySVRRevenue` from `dataLoader.js` (lines 370–394): totalVolume to
1 decimal, revenue/expense/netRevenue to 0 decimals, avgPrice to 2 decimals
with a zero-volume guard; sorted by month. -/
def monthlySVRRevenue (reNegData : List RegRow) : List SVRRow :=
  List.insertionSort (fun a b => a.month ≤ b.month)
    ((svrMapOf reNegData).map (fun e =>
      ⟨e.1, round1 e.2.totalVolume, round0 e.2.revenue, round0 e.2.expense,
       round0 (e.2.revenue - e.2.expense),
       if 0 < e.2.totalVolume then round2 (e.2.revenue / e.2.totalVolume) else 0⟩))

/-- Specification-side helpers: raw per-month accumulator totals. -/
def volSum (l : List RegRow) : ℚ :=
  ((l.filterMap (fun r => r.volume_mwh)).map (fun v => |v|)).sum

def revSum (l : List RegRow) : ℚ :=
  (((l.filterMap (fun r => r.cost)).filter (fun c => c < 0)).map (fun c => |c|)).sum

def expSum (l : List RegRow) : ℚ :=
  ((l.filterMap (fun r => r.cost)).filter (fun c => ¬ c < 0)).sum

/-- The rows of one month. -/
def monthRows (data : List RegRow) (m : String) : List RegRow :=
  data.filter (fun r => monthOf r = m)

/-- Raw (unrounded) monthly totals: absorbed volume, revenue, expense. -/
def mVol (data : List RegRow) (m : String) : ℚ := volSum (monthRows data m)

def mRev (data : List RegRow) (m : String) : ℚ := revSum (monthRows data m)

def mExp (data : List RegRow) (m : String) : ℚ := expSum (monthRows data m)

/-- Per-row contributions of the accumulation. -/
def dvol (r : RegRow) : ℚ :=
  match r.volume_mwh with
  | none => 0
  | some v => |v|

def drev (r : RegRow) : ℚ :=
  match r.cost with
  | none => 0
  | some c => if c < 0 then |c| else 0

def dexp (r : RegRow) : ℚ :=
  match r.cost with
  | none => 0
  | some c => if c < 0 then 0 else c

theorem svrG_eq (o : Option SVRAcc) (r : RegRow) :
    svrG o r = some ⟨(o.getD ⟨0, 0, 0⟩).totalVolume + dvol r,
      (o.getD ⟨0, 0, 0⟩).revenue + drev r, (o.getD ⟨0, 0, 0⟩).expense + dexp r⟩ := by
  unfold svrG dvol drev dexp
  cases r.volume_mwh with
  | none =>
    cases r.cost with
    | none => simp
    | some c =>
      by_cases hc : c < 0 <;> simp [hc]
  | some v =>
    cases r.cost with
    | none => simp
    | some c =>
      by_cases hc : c < 0 <;> simp [hc]

theorem volSum_cons (r : RegRow) (t : List RegRow) :
    volSum (r :: t) = dvol r + volSum t := by
  unfold volSum dvol
  rw [List.filterMap_cons]
  cases r.volume_mwh with
  | none => simp
  | some v => simp

theorem revSum_cons (r : RegRow) (t : List RegRow) :
    revSum (r :: t) = drev r + revSum t := by
  unfold revSum drev
  rw [List.filterMap_cons]
  cases r.cost with
  | none => simp
  | some c =>
    by_cases hc : c < 0
    · rw [List.filter_cons_of_pos (by simpa using hc)]
      simp [hc]
    · rw [List.filter_cons_of_neg (by simpa using hc)]
      simp [hc]

theorem expSum_cons (r : RegRow) (t : List RegRow) :
    expSum (r :: t) = dexp r + expSum t := by
  unfold expSum dexp
  rw [List.filterMap_cons]
  cases r.cost with
  | none => simp
  | some c =>
    by_cases hc : c < 0
    · rw [List.filter_cons_of_neg (by simpa using hc)]
      simp [hc]
    · rw [List.filter_cons_of_pos (by simpa using hc)]
      simp [hc]

theorem foldl_optStep_svrG (l : List RegRow) (o : Option SVRAcc) :
    l.foldl (optStep svrG) o =
      if l = [] then o
      else some ⟨(o.getD ⟨0, 0, 0⟩).totalVolume + volSum l,
                 (o.getD ⟨0, 0, 0⟩).revenue + revSum l,
                 (o.getD ⟨0, 0, 0⟩).expense + expSum l⟩ := by
  induction l generalizing o with
  | nil => simp
  | cons r t ih =>
    rw [List.foldl_cons]
    have hstep : optStep svrG o r =
        some ⟨(o.getD ⟨0, 0, 0⟩).totalVolume + dvol r,
          (o.getD ⟨0, 0, 0⟩).revenue + drev r, (o.getD ⟨0, 0, 0⟩).expense + dexp r⟩ := by
      unfold optStep
      rw [svrG_eq]
    rw [hstep, ih, if_neg (by simp : ¬ r :: t = []),
      volSum_cons, revSum_cons, expSum_cons]
    by_cases ht : t = []
    · subst ht
      rw [if_pos rfl, Option.some.injEq, SVRAcc.mk.injEq]
      unfold volSum revSum expSum
      refine ⟨?_, ?_, ?_⟩ <;> simp
    · rw [if_neg ht, Option.some.injEq, SVRAcc.mk.injEq]
      refine ⟨?_, ?_, ?_⟩ <;> simp <;> ring

/-- Entry of the month map = raw monthly totals. -/
theorem lookupA_svrMapOf (data : List RegRow) (m : String) :
    lookupA m (svrMapOf data) =
      if monthRows data m = [] then none
      else some ⟨mVol data m, mRev data m, mExp data m⟩ := by
  rw [svrMapOf, lookupA_buildMap, foldl_optStep_svrG]
  rw [show (data.filter (fun a => monthOf a = m)) = monthRows data m from rfl]
  by_cases hf : monthRows data m = []
  · rw [if_pos hf, if_pos hf]
  · rw [if_neg hf, if_neg hf]
    rw [Option.some.injEq, SVRAcc.mk.injEq]
    unfold mVol mRev mExp
    refine ⟨?_, ?_, ?_⟩ <;> simp

/-- Decompose membership in `monthlySVRRevenue`'s output. -/
theorem monthlySVRRevenue_mem_elim {data : List RegRow} {row : SVRRow}
    (hrow : row ∈ monthlySVRRevenue data) :
    row.totalVolume = round1 (mVol data row.month) ∧
    row.revenue = round0 (mRev data row.month) ∧
    row.expense = round0 (mExp data row.month) ∧
    row.netRevenue = round0 (mRev data row.month - mExp data row.month) ∧
    row.avgPrice = (if 0 < mVol data row.month
      then round2 (mRev data row.month / mVol data row.month) else 0) := by
  rw [monthlySVRRevenue,
    (List.perm_insertionSort (fun a b : SVRRow => a.month ≤ b.month) _).mem_iff] at hrow
  rcases List.mem_map.mp hrow with ⟨e, he, heq⟩
  have hl : lookupA e.1 (svrMapOf data) = some e.2 :=
    lookupA_of_mem_buildMap he
  rw [lookupA_svrMapOf] at hl
  by_cases hf : monthRows data e.1 = []
  · rw [if_pos hf] at hl
    exact absurd hl (by simp)
  · rw [if_neg hf] at hl
    have hacc : e.2 = ⟨mVol data e.1, mRev data e.1, mExp data e.1⟩ := by
      injection hl with hl
      exact hl.symm
    subst heq
    have hm : (⟨e.1, round1 e.2.totalVolume, round0 e.2.revenue, round0 e.2.expense,
        round0 (e.2.revenue - e.2.expense),
        if 0 < e.2.totalVolume then round2 (e.2.revenue / e.2.totalVolume) else 0⟩ :
        SVRRow).month = e.1 := rfl
    rw [hm, hacc]
    exact ⟨rfl, rfl, rfl, rfl, rfl⟩

/-- C4 (amended): `monthlySVRRevenue`'s numeric fields are pre-rounded, but
to these precisions: `totalVolume` to 1 decimal, `revenue`, `expense` and
`netRevenue` to 0 decimals (integers), `avgPrice` to 2 decimals. -/
theorem monthlySVRRevenue_rounding :
    ∀ (reNegData : List RegRow) (row : SVRRow),
      row ∈ monthlySVRRevenue reNegData →
      row.totalVolume = round1 (mVol reNegData row.month) ∧
      row.revenue = round0 (mRev reNegData row.month) ∧
      row.expense = round0 (mExp reNegData row.month) ∧
      row.netRevenue = round0 (mRev reNegData row.month - mExp reNegData row.month) ∧
      row.avgPrice = (if 0 < mVol reNegData row.month
        then round2 (mRev reNegData row.month / mVol reNegData row.month) else 0) :=
  fun _ _ hrow => monthlySVRRevenue_mem_elim hrow

/-- C4 counterexample: one row with cost −10.56 yields the emitted
`revenue = 11` (rounded to 0 decimals), while rounding the raw revenue to 2
decimals keeps 10.56 — so the claim that the currency fields `revenue`,
`expense`, `netRevenue` are rounded to 2 decimals is false. -/
theorem monthlySVRRevenue_rounding_counterexample :
    monthlySVRRevenue [RegRow.mk "2025-01-05" (some 1) (some 1) (some (-1056/100))] =
      [SVRRow.mk "2025-01" 1 11 0 11 (264/25)] ∧
    mRev [RegRow.mk "2025-01-05" (some 1) (some 1) (some (-1056/100))] "2025-01" =
      1056/100 ∧
    round2 (1056/100) = 1056/100 ∧
    (11 : ℚ) ≠ 1056/100 := by
  refine ⟨?_, ?_, ?_, by norm_num⟩
  · norm_num [monthlySVRRevenue, svrMapOf, buildMap, mapStep, svrG, monthOf,
      lookupA, updOrApp, List.insertionSort, round0, round1, round2, jround,
      SVRRow.mk.injEq, abs_of_nonneg, show ("2025-01-05" : String).take 7 = "2025-01" from by decide]
  · norm_num [mRev, revSum, monthRows, monthOf, List.filterMap_cons, show ("2025-01-05" : String).take 7 = "2025-01" from by decide]
  · norm_num [round2, jround]

/-- C8 (amended): `netRevenue` is the 0-decimal rounding of the raw
(unrounded) `revenue − expense` difference — which may differ from the
difference of the emitted rounded fields — and `avgPrice` is the 2-decimal
rounding of raw `revenue / totalVolume` when the raw volume is positive,
with defined fallback `0` when the volume is zero (no division occurs). -/
theorem monthlySVRRevenue_net_and_avg :
    ∀ (reNegData : List RegRow) (row : SVRRow),
      row ∈ monthlySVRRevenue reNegData →
      row.netRevenue = round0 (mRev reNegData row.month - mExp reNegData row.month) ∧
      (0 < mVol reNegData row.month →
        row.avgPrice = round2 (mRev reNegData row.month / mVol reNegData row.month)) ∧
      (mVol reNegData row.month = 0 → row.avgPrice = 0) := by
  intro reNegData row hrow
  obtain ⟨-, -, -, hnet, havg⟩ := monthlySVRRevenue_mem_elim hrow
  refine ⟨hnet, ?_, ?_⟩
  · intro hpos
    rw [havg, if_pos hpos]
  · intro hzero
    rw [havg, if_neg (by rw [hzero]; exact lt_irrefl 0)]

/-- C8 counterexample: costs −1.4 and 0.6 in one month give emitted
`revenue = 1`, `expense = 1`, `netRevenue = 1` (from the raw difference
0.8), so `netRevenue ≠ revenue − expense` on the emitted fields. -/
theorem monthlySVRRevenue_net_counterexample :
    monthlySVRRevenue [RegRow.mk "2025-01-05" (some 1) (some 1) (some (-14/10)),
        RegRow.mk "2025-01-06" (some 1) (some 1) (some (6/10))] =
      [SVRRow.mk "2025-01" 2 1 1 1 (7/10)] ∧
    ((1 : ℚ)) ≠ 1 - 1 := by
  refine ⟨?_, by norm_num⟩
  norm_num [monthlySVRRevenue, svrMapOf, buildMap, mapStep, svrG, monthOf,
    lookupA, updOrApp, List.insertionSort, round0, round1, round2, jround,
    SVRRow.mk.injEq, abs_of_nonneg, show ("2025-01-05" : String).take 7 = "2025-01" from by decide, show ("2025-01-06" : String).take 7 = "2025-01" from by decide]

/-- Witness for C4 at a concrete one-row input. -/
theorem monthlySVRRevenue_rounding_witness :
    (SVRRow.mk "2025-01" 1 11 0 11 (264/25)).totalVolume =
      round1 (mVol [RegRow.mk "2025-01-05" (some 1) (some 1) (some (-1056/100))]
        (SVRRow.mk "2025-01" 1 11 0 11 (264/25)).month) ∧
    (SVRRow.mk "2025-01" 1 11 0 11 (264/25)).revenue =
      round0 (mRev [RegRow.mk "2025-01-05" (some 1) (some 1) (some (-1056/100))]
        (SVRRow.mk "2025-01" 1 11 0 11 (264/25)).month) ∧
    (SVRRow.mk "2025-01" 1 11 0 11 (264/25)).expense =
      round0 (mExp [RegRow.mk "2025-01-05" (some 1) (some 1) (some (-1056/100))]
        (SVRRow.mk "2025-01" 1 11 0 11 (264/25)).month) ∧
    (SVRRow.mk "2025-01" 1 11 0 11 (264/25)).netRevenue =
      round0 (mRev [RegRow.mk "2025-01-05" (some 1) (some 1) (some (-1056/100))]
          (SVRRow.mk "2025-01" 1 11 0 11 (264/25)).month -
        mExp [RegRow.mk "2025-01-05" (some 1) (some 1) (some (-1056/100))]
          (SVRRow.mk "2025-01" 1 11 0 11 (264/25)).month) ∧
    (SVRRow.mk "2025-01" 1 11 0 11 (264/25)).avgPrice =
      (if 0 < mVol [RegRow.mk "2025-01-05" (some 1) (some 1) (some (-1056/100))]
          (SVRRow.mk "2025-01" 1 11 0 11 (264/25)).month
       then round2 (mRev [RegRow.mk "2025-01-05" (some 1) (some 1) (some (-1056/100))]
            (SVRRow.mk "2025-01" 1 11 0 11 (264/25)).month /
          mVol [RegRow.mk "2025-01-05" (some 1) (some 1) (some (-1056/100))]
            (SVRRow.mk "2025-01" 1 11 0 11 (264/25)).month)
       else 0) :=
  monthlySVRRevenue_rounding [RegRow.mk "2025-01-05" (some 1) (some 1) (some (-1056/100))]
    (SVRRow.mk "2025-01" 1 11 0 11 (264/25))
    (by have hev : monthlySVRRevenue
          [RegRow.mk "2025-01-05" (some 1) (some 1) (some (-1056/100))] =
          [SVRRow.mk "2025-01" 1 11 0 11 (264/25)] := by
          norm_num [monthlySVRRevenue, svrMapOf, buildMap, mapStep, svrG, monthOf,
            lookupA, updOrApp, List.insertionSort, round0, round1, round2, jround,
            SVRRow.mk.injEq, abs_of_nonneg, show ("2025-01-05" : String).take 7 = "2025-01" from by decide]
        rw [hev]
        exact List.mem_singleton.mpr rfl)

/-- Witness for C8 at a concrete one-row input. -/
theorem monthlySVRRevenue_net_and_avg_witness :
    (SVRRow.mk "2025-01" 1 11 0 11 (264/25)).netRevenue =
      round0 (mRev [RegRow.mk "2025-01-05" (some 1) (some 1) (some (-1056/100))]
          (SVRRow.mk "2025-01" 1 11 0 11 (264/25)).month -
        mExp [RegRow.mk "2025-01-05" (some 1) (some 1) (some (-1056/100))]
          (SVRRow.mk "2025-01" 1 11 0 11 (264/25)).month) ∧
    (SVRRow.mk "2025-01" 1 11 0 11 (264/25)).avgPrice =
      round2 (mRev [RegRow.mk "2025-01-05" (some 1) (some 1) (some (-1056/100))]
          (SVRRow.mk "2025-01" 1 11 0 11 (264/25)).month /
        mVol [RegRow.mk "2025-01-05" (some 1) (some 1) (some (-1056/100))]
          (SVRRow.mk "2025-01" 1 11 0 11 (264/25)).month) := by
  have hev : monthlySVRRevenue
      [RegRow.mk "2025-01-05" (some 1) (some 1) (some (-1056/100))] =
      [SVRRow.mk "2025-01" 1 11 0 11 (264/25)] := by
    norm_num [monthlySVRRevenue, svrMapOf, buildMap, mapStep, svrG, monthOf,
      lookupA, updOrApp, List.insertionSort, round0, round1, round2, jround,
      SVRRow.mk.injEq, abs_of_nonneg, show ("2025-01-05" : String).take 7 = "2025-01" from by decide]
  have h := monthlySVRRevenue_net_and_avg
    [RegRow.mk "2025-01-05" (some 1) (some 1) (some (-1056/100))]
    (SVRRow.mk "2025-01" 1 11 0 11 (264/25))
    (by rw [hev]; exact List.mem_singleton.mpr rfl)
  refine ⟨h.1, h.2.1 ?_⟩
  norm_num [mVol, volSum, monthRows, monthOf, List.filterMap_cons, show ("2025-01-05" : String).take 7 = "2025-01" from by decide]

/-- One grid-imbalance observation (`{date, hour, settlement_price}`). -/
structure ImbRow where
  date : String
  hour : Option ℤ
  settlement_price : Option ℚ
deriving DecidableEq

/-- Output row of `imbalancePriceVolatility`. -/
structure VolRow where
  date : String
  avgPrice : ℚ
  minPrice : ℚ
  maxPrice : ℚ
  spread : ℚ
deriving DecidableEq

/-- All non-null settlement prices, in input order. -/
def rawSettle (data : List ImbRow) : List ℚ :=
  data.filterMap (fun r => r.settlement_price)

def sortedSettle (data : List ImbRow) : List ℚ := sortQ (rawSettle data)

/-- `Math.floor(n * 0.02)` on an array length (exact for all realistic `n`;
`n * 0.02 = n / 50` suffers no double-rounding drift below astronomic
sizes). -/
def p2idx (n : ℕ) : ℕ := 2 * n / 100

/-- `Math.floor(n * 0.98)`. -/
def p98idx (n : ℕ) : ℕ := 98 * n / 100

/-- The 2nd percentile as the claim words it: the element at index
`floor(n*0.02)` of the ascending-sorted list, `−∞` (here: `none`) only when
the list is empty. -/
def p2claim (data : List ImbRow) : Option ℚ :=
  (sortedSettle data)[p2idx (rawSettle data).length]?

/-- The 98th percentile as the claim words it (`+∞`/`none` only when
empty). -/
def p98claim (data : List ImbRow) : Option ℚ :=
  (sortedSettle data)[p98idx (rawSettle data).length]?

/-- The 2nd percentile as the code computes it: `allPrices[i] || -Infinity`
also falls back to the `−∞` sentinel when the indexed element is `0`
(a falsy value in JS). -/
def p2code (data : List ImbRow) : Option ℚ :=
  match p2claim data with
  | none => none
  | some v => if v = 0 then none else some v

/-- The 98th percentile as the code computes it (`0` is falsy). -/
def p98code (data : List ImbRow) : Option ℚ :=
  match p98claim data with
  | none => none
  | some v => if v = 0 then none else some v

/-- `Math.max(lo, ·)` with `none` playing `-Infinity`. -/
def clipLo (lo : Option ℚ) (x : ℚ) : ℚ :=
  match lo with
  | none => x
  | some a => max a x

/-- `Math.min(hi, ·)` with `none` playing `Infinity`. -/
def clipHi (hi : Option ℚ) (x : ℚ) : ℚ :=
  match hi with
  | none => x
  | some b => min b x

/-- `Math.max(p2, Math.min(p98, price))`. -/
def clip (lo hi : Option ℚ) (x : ℚ) : ℚ := clipLo lo (clipHi hi x)

/-- The `dayMap` accumulation of `imbalancePriceVolatility`, parameterised by
the value transformation `f` applied before grouping (the clip). -/
def imbG (f : ℚ → ℚ) (o : Option (List ℚ)) (r : ImbRow) : Option (List ℚ) :=
  match r.settlement_price with
  | none => none
  | some p => some (o.getD [] ++ [f p])

def imbDayMap (f : ℚ → ℚ) (data : List ImbRow) : List (String × List ℚ) :=
  buildMap (fun r : ImbRow => r.date) (imbG f) data

def volRows (f : ℚ → ℚ) (data : List ImbRow) : List VolRow :=
  (imbDayMap f data).map (fun e =>
    ⟨e.1, round2 (mean e.2), round2 (listMin e.2), round2 (listMax e.2),
     round2 (listMax e.2 - listMin e.2)⟩)

/-- `imbalancePriceVolatility` from `dataLoader.js` (lines 396–428): global
P2/P98 percentile clip, then per-day avg/min/max/spread, sorted by date. -/
def imbalancePriceVolatility (imbalanceData : List ImbRow) : List VolRow :=
  List.insertionSort (fun a b => a.date ≤ b.date)
    (volRows (clip (p2code imbalanceData) (p98code imbalanceData)) imbalanceData)

/-- The same pipeline with the clip removed (spec-side comparison object for
the no-op half of the percentile-clip claim). -/
def volatilityNoClip (imbalanceData : List ImbRow) : List VolRow :=
  List.insertionSort (fun a b => a.date ≤ b.date) (volRows (fun x => x) imbalanceData)

theorem foldl_optStep_imbG (f : ℚ → ℚ) (l : List ImbRow) (o : Option (List ℚ)) :
    l.foldl (optStep (imbG f)) o =
      if l.filterMap (fun r => r.settlement_price) = [] then o
      else some (o.getD [] ++ (l.filterMap (fun r => r.settlement_price)).map f) := by
  induction l generalizing o with
  | nil => simp
  | cons r t ih =>
    rw [List.foldl_cons, List.filterMap_cons]
    cases hp : r.settlement_price with
    | none =>
      have hstep : optStep (imbG f) o r = o := by
        unfold optStep imbG
        rw [hp]
      rw [hstep, ih o]
    | some p =>
      have hstep : optStep (imbG f) o r = some (o.getD [] ++ [f p]) := by
        unfold optStep imbG
        rw [hp]
      rw [hstep, ih]
      cases hts : t.filterMap (fun r => r.settlement_price) with
      | nil => simp
      | cons q qs =>
        simp only [List.map_cons, if_neg (by simp : ¬ q :: qs = []),
          if_neg (by simp : ¬ p :: q :: qs = []), Option.getD_some]
        rw [List.append_assoc]
        rfl

/-- The non-null settlement prices of one date, in input order. -/
def dateSettle (data : List ImbRow) (d : String) : List ℚ :=
  (data.filter (fun r => r.date = d)).filterMap (fun r => r.settlement_price)

/-- Entry of the `dayMap` = the date's settlement prices through `f`. -/
theorem lookupA_imbDayMap (f : ℚ → ℚ) (data : List ImbRow) (d : String) :
    lookupA d (imbDayMap f data) =
      if dateSettle data d = [] then none else some ((dateSettle data d).map f) := by
  rw [imbDayMap, lookupA_buildMap, foldl_optStep_imbG, dateSettle]
  simp

theorem foldl_min_mem (t : List ℚ) (p : ℚ) : t.foldl min p ∈ p :: t := by
  induction t generalizing p with
  | nil => simp
  | cons q qs ih =>
    rw [List.foldl_cons]
    rcases List.mem_cons.mp (ih (min p q)) with h | h
    · rw [h]
      rcases min_choice p q with hm | hm <;> rw [hm] <;> simp
    · simp [h]

theorem foldl_max_mem (t : List ℚ) (p : ℚ) : t.foldl max p ∈ p :: t := by
  induction t generalizing p with
  | nil => simp
  | cons q qs ih =>
    rw [List.foldl_cons]
    rcases List.mem_cons.mp (ih (max p q)) with h | h
    · rw [h]
      rcases max_choice p q with hm | hm <;> rw [hm] <;> simp
    · simp [h]

theorem listMin_mem {l : List ℚ} (h : l ≠ []) : listMin l ∈ l := by
  cases l with
  | nil => exact absurd rfl h
  | cons p t => exact foldl_min_mem t p

theorem listMax_mem {l : List ℚ} (h : l ≠ []) : listMax l ∈ l := by
  cases l with
  | nil => exact absurd rfl h
  | cons p t => exact foldl_max_mem t p

/-- Unfolding the falsy-aware sentinel: a present code bound is the claim
bound. -/
theorem falsy_bound_some {o : Option ℚ} {a : ℚ}
    (h : (match o with
          | none => none
          | some v => if v = 0 then none else some v) = some a) :
    o = some a := by
  cases o with
  | none => exact absurd h (by simp)
  | some v =>
    dsimp only at h
    by_cases hv : v = 0
    · rw [if_pos hv] at h
      exact absurd h (by simp)
    · rw [if_neg hv] at h
      exact h

theorem p2code_some {data : List ImbRow} {a : ℚ} (h : p2code data = some a) :
    p2claim data = some a := by
  unfold p2code at h
  exact falsy_bound_some h

theorem p98code_some {data : List ImbRow} {b : ℚ} (h : p98code data = some b) :
    p98claim data = some b := by
  unfold p98code at h
  exact falsy_bound_some h

/-- The code's percentile bounds are ordered when both are present. -/
theorem p2code_le_p98code {data : List ImbRow} {a b : ℚ}
    (ha : p2code data = some a) (hb : p98code data = some b) : a ≤ b := by
  have ha' : p2claim data = some a := p2code_some ha
  have hb' : p98claim data = some b := p98code_some hb
  unfold p2claim at ha'
  unfold p98claim at hb'
  rcases List.getElem?_eq_some.mp ha' with ⟨h2, hget2⟩
  rcases List.getElem?_eq_some.mp hb' with ⟨h98, hget98⟩
  have hsorted : (sortedSettle data).Sorted (· ≤ ·) :=
    List.sorted_insertionSort (· ≤ ·) (rawSettle data)
  have hidx : p2idx (rawSettle data).length ≤ p98idx (rawSettle data).length :=
    Nat.div_le_div_right (Nat.mul_le_mul_right _ (by omega))
  have := hsorted.rel_get_of_le
    (a := ⟨p2idx (rawSettle data).length, h2⟩)
    (b := ⟨p98idx (rawSettle data).length, h98⟩) hidx
  rw [← hget2, ← hget98]
  exact this

theorem clip_ge_lo {lo hi : Option ℚ} {a x : ℚ} (hlo : lo = some a) :
    a ≤ clip lo hi x := by
  subst hlo
  unfold clip clipLo
  exact le_max_left a _

theorem clip_le_hi {lo hi : Option ℚ} {b x : ℚ} (hhi : hi = some b)
    (hle : ∀ a, lo = some a → a ≤ b) : clip lo hi x ≤ b := by
  subst hhi
  unfold clip clipLo clipHi
  cases lo with
  | none => exact min_le_left b x
  | some a => exact max_le (hle a rfl) (min_le_left b x)

theorem foldl_imbG_congr {f g : ℚ → ℚ} {data : List ImbRow}
    (h : ∀ r ∈ data, ∀ p, r.settlement_price = some p → f p = g p) :
    ∀ m, data.foldl (mapStep (fun r : ImbRow => r.date) (imbG f)) m =
      data.foldl (mapStep (fun r : ImbRow => r.date) (imbG g)) m := by
  induction data with
  | nil => intro m; rfl
  | cons r t ih =>
    intro m
    rw [List.foldl_cons, List.foldl_cons]
    have hstep : mapStep (fun r : ImbRow => r.date) (imbG f) m r =
        mapStep (fun r : ImbRow => r.date) (imbG g) m r := by
      unfold mapStep imbG
      cases hp : r.settlement_price with
      | none => rfl
      | some p =>
        dsimp only
        rw [h r (List.mem_cons_self r t) p hp]
    rw [hstep]
    exact ih (fun r' hr' => h r' (List.mem_cons_of_mem _ hr')) _

/-- If the transformation fixes every settlement price of the input, the
grouped day map is unchanged. -/
theorem imbDayMap_congr {f g : ℚ → ℚ} {data : List ImbRow}
    (h : ∀ r ∈ data, ∀ p, r.settlement_price = some p → f p = g p) :
    imbDayMap f data = imbDayMap g data :=
  foldl_imbG_congr h []

/-- C2 (amended): with `p2`/`p98` as the code computes them (falling back to
the `−∞`/`+∞` sentinels also when the element at the percentile index equals
`0`, a JS falsy value), every emitted per-day `minPrice` and `maxPrice` lies
within the rounded bounds `[round2 p2, round2 p98]`; and when every
settlement price already lies within `[p2, p98]` as the claim defines them,
clipping changes nothing: the output equals the unclipped pipeline. -/
theorem imbalancePriceVolatility_clip_bounds :
    ∀ data : List ImbRow,
      (∀ row ∈ imbalancePriceVolatility data,
        (∀ a, p2code data = some a →
          round2 a ≤ row.minPrice ∧ round2 a ≤ row.maxPrice) ∧
        (∀ b, p98code data = some b →
          row.minPrice ≤ round2 b ∧ row.maxPrice ≤ round2 b)) ∧
      ((∀ p ∈ rawSettle data,
          (∀ a, p2claim data = some a → a ≤ p) ∧
          (∀ b, p98claim data = some b → p ≤ b)) →
        imbalancePriceVolatility data = volatilityNoClip data) := by
  intro data
  constructor
  · intro row hrow
    rw [imbalancePriceVolatility,
      (List.perm_insertionSort (fun a b : VolRow => a.date ≤ b.date) _).mem_iff] at hrow
    rcases List.mem_map.mp hrow with ⟨e, he, heq⟩
    have hl : lookupA e.1 (imbDayMap (clip (p2code data) (p98code data)) data) = some e.2 :=
      lookupA_of_mem_buildMap he
    rw [lookupA_imbDayMap] at hl
    by_cases hf : dateSettle data e.1 = []
    · rw [if_pos hf] at hl
      exact absurd hl (by simp)
    · rw [if_neg hf] at hl
      have he2 : e.2 = (dateSettle data e.1).map (clip (p2code data) (p98code data)) := by
        injection hl with hl
        exact hl.symm
      have hne : e.2 ≠ [] := by
        rw [he2]
        simpa using hf
      have hbound : ∀ x ∈ e.2,
          (∀ a, p2code data = some a → a ≤ x) ∧
          (∀ b, p98code data = some b → x ≤ b) := by
        intro x hx
        rw [he2] at hx
        rcases List.mem_map.mp hx with ⟨p, hp, hpx⟩
        constructor
        · intro a hA
          rw [← hpx]
          exact clip_ge_lo hA
        · intro b hB
          rw [← hpx]
          exact clip_le_hi hB (fun a hA => p2code_le_p98code hA hB)
      subst heq
      constructor
      · intro a hA
        exact ⟨round2_mono ((hbound _ (listMin_mem hne)).1 a hA),
               round2_mono ((hbound _ (listMax_mem hne)).1 a hA)⟩
      · intro b hB
        exact ⟨round2_mono ((hbound _ (listMin_mem hne)).2 b hB),
               round2_mono ((hbound _ (listMax_mem hne)).2 b hB)⟩
  · intro hin
    unfold imbalancePriceVolatility volatilityNoClip
    rw [show volRows (clip (p2code data) (p98code data)) data =
        volRows (fun x => x) data from by
      unfold volRows
      rw [imbDayMap_congr (f := clip (p2code data) (p98code data)) (g := fun x => x)]
      intro r hr p hp
      have hmem : p ∈ rawSettle data := List.mem_filterMap.mpr ⟨r, hr, hp⟩
      obtain ⟨hA, hB⟩ := hin p hmem
      unfold clip clipHi clipLo
      cases hcode98 : p98code data with
      | none =>
        cases hcode2 : p2code data with
        | none => rfl
        | some a =>
          exact max_eq_right (hA a (p2code_some hcode2))
      | some b =>
        have hpb : p ≤ b := hB b (p98code_some hcode98)
        cases hcode2 : p2code data with
        | none =>
          exact min_eq_right hpb
        | some a =>
          dsimp only
          rw [min_eq_right hpb]
          exact max_eq_right (hA a (p2code_some hcode2))]

/-- C2 counterexample: a single settlement price 1.006 gives
`p98 = 1.006` under the claim's definition, yet the emitted `maxPrice` is
the rounded `1.01 > 1.006` — the claim's bound on the returned fields is
false as stated. -/
theorem imbalancePriceVolatility_clip_bounds_counterexample :
    (imbalancePriceVolatility [ImbRow.mk "2025-01-01" (some 1) (some (1006/1000))]).map
        (fun r => r.maxPrice) = [101/100] ∧
    p98claim [ImbRow.mk "2025-01-01" (some 1) (some (1006/1000))] = some (503/500) ∧
    ¬ ((101 : ℚ)/100 ≤ 503/500) := by
  refine ⟨?_, ?_, by norm_num⟩
  · norm_num [imbalancePriceVolatility, volRows, imbDayMap, buildMap, mapStep, imbG,
      lookupA, updOrApp, clip, clipLo, clipHi, p2code, p98code, p2claim, p98claim,
      sortedSettle, sortQ, rawSettle, p2idx, p98idx, List.insertionSort,
      List.orderedInsert, listMin, listMax, mean, round2, jround,
      List.filterMap_cons]
  · norm_num [p98claim, sortedSettle, sortQ, rawSettle, p98idx,
      List.insertionSort, List.orderedInsert, List.filterMap_cons]

/-- Witness for C2 at a concrete one-row input (both conjuncts of the
theorem instantiated, hypotheses discharged). -/
theorem imbalancePriceVolatility_clip_bounds_witness :
    (round2 5 ≤ (VolRow.mk "2025-01-01" 5 5 5 0).minPrice ∧
     round2 5 ≤ (VolRow.mk "2025-01-01" 5 5 5 0).maxPrice) ∧
    imbalancePriceVolatility [ImbRow.mk "2025-01-01" (some 1) (some 5)] =
      volatilityNoClip [ImbRow.mk "2025-01-01" (some 1) (some 5)] := by
  have h := imbalancePriceVolatility_clip_bounds [ImbRow.mk "2025-01-01" (some 1) (some 5)]
  have hev : imbalancePriceVolatility [ImbRow.mk "2025-01-01" (some 1) (some 5)] =
      [VolRow.mk "2025-01-01" 5 5 5 0] := by
    norm_num [imbalancePriceVolatility, volRows, imbDayMap, buildMap, mapStep, imbG,
      lookupA, updOrApp, clip, clipLo, clipHi, p2code, p98code, p2claim, p98claim,
      sortedSettle, sortQ, rawSettle, p2idx, p98idx, List.insertionSort,
      List.orderedInsert, listMin, listMax, mean, round2, jround,
      List.filterMap_cons]
  have hcode : p2code [ImbRow.mk "2025-01-01" (some 1) (some 5)] = some 5 := by
    norm_num [p2code, p2claim, sortedSettle, sortQ, rawSettle, p2idx,
      List.insertionSort, List.orderedInsert, List.filterMap_cons]
  refine ⟨(h.1 (VolRow.mk "2025-01-01" 5 5 5 0)
    (by rw [hev]; exact List.mem_singleton.mpr rfl)).1 5 hcode, h.2 ?_⟩
  intro p hp
  have hp5 : p = 5 := by
    simpa [rawSettle, List.filterMap_cons] using hp
  subst hp5
  constructor
  · intro a ha
    have : a = 5 := by
      rw [show p2claim [ImbRow.mk "2025-01-01" (some 1) (some 5)] = some 5 from by
        norm_num [p2claim, sortedSettle, sortQ, rawSettle, p2idx,
          List.insertionSort, List.orderedInsert, List.filterMap_cons]] at ha
      injection ha with ha
      exact ha.symm
    rw [this]
  · intro b hb
    have : b = 5 := by
      rw [show p98claim [ImbRow.mk "2025-01-01" (some 1) (some 5)] = some 5 from by
        norm_num [p98claim, sortedSettle, sortQ, rawSettle, p98idx,
          List.insertionSort, List.orderedInsert, List.filterMap_cons]] at hb
      injection hb with hb
      exact hb.symm
    rw [this]

/-- Witness for C5 at a concrete matched input. -/
theorem damVsImSpread_join_exclusive_witness :
    (∃ r ∈ [Row.mk "2025-01-03" (some 1) (some 20)],
      r.date = (SpreadRow.mk "2025-01-03" 20 8 (-12)).date ∧ r.price ≠ none) ∧
    (∃ r ∈ [Row.mk "2025-01-03" (some 1) (some 8)],
      r.date = (SpreadRow.mk "2025-01-03" 20 8 (-12)).date ∧ r.price ≠ none) :=
  damVsImSpread_join_exclusive [Row.mk "2025-01-03" (some 1) (some 20)]
    [Row.mk "2025-01-03" (some 1) (some 8)] (SpreadRow.mk "2025-01-03" 20 8 (-12))
    (by norm_num [damVsImSpread, dayDataOf, hourPriceMapOf, buildMap, mapStep, ddG,
      priceG, hourKey, lookupA, updOrApp, List.insertionSort, round2, jround,
      zeroDayAcc, optStep])

/-- Strengthened membership in an updated association list: with nodup keys,
an entry either is exactly the written pair or is an untouched entry with a
different key. -/
theorem mem_updOrApp_strong {κ σ : Type} [DecidableEq κ] {m : List (κ × σ)}
    {k k' : κ} {v v' : σ} (hn : (keysA m).Nodup) (h : (k', v') ∈ updOrApp m k v) :
    (k' = k ∧ v' = v) ∨ ((k', v') ∈ m ∧ k' ≠ k) := by
  rcases mem_updOrApp h with he | hm
  · exact Or.inl he
  · by_cases hk : k' = k
    · subst hk
      have hn' : (keysA (updOrApp m k' v)).Nodup := by
        by_cases hmem : k' ∈ keysA m
        · rw [keysA_updOrApp_of_mem v hmem]
          exact hn
        · rw [keysA_updOrApp_of_not_mem v hmem]
          simpa [List.nodup_append] using ⟨hn, hmem⟩
      have h1 : lookupA k' (updOrApp m k' v) = some v' :=
        lookupA_of_mem_of_nodup hn' h
      rw [lookupA_updOrApp_self] at h1
      injection h1 with h1
      exact Or.inl ⟨rfl, h1.symm⟩
    · exact Or.inr ⟨hm, hk⟩

/-- Output row of `cumulativeCheapHours`. -/
structure CumRow where
  date : String
  totalCheapHours : ℕ
deriving DecidableEq

/-- The filter `r.date && r.hour != null` (an empty date string is falsy). -/
def cheapFilter (data : List Row) : List Row :=
  data.filter (fun r => ¬ r.date = "" ∧ ¬ r.hour = none)

/-- The sort comparator
`a.date.localeCompare(b.date) || a.hour - b.hour`, as a total preorder:
lexicographic on `(date, hour)` (rows reaching the sort have non-null
hours). -/
def rowLe (a b : Row) : Prop :=
  a.date < b.date ∨ (a.date = b.date ∧ a.hour.getD 0 ≤ b.hour.getD 0)

instance : DecidableRel rowLe := fun a b => by
  unfold rowLe
  infer_instance

instance : IsTotal Row rowLe :=
  ⟨fun a b => by
    unfold rowLe
    rcases lt_trichotomy a.date b.date with h | h | h
    · exact Or.inl (Or.inl h)
    · rcases le_total (a.hour.getD 0) (b.hour.getD 0) with hh | hh
      · exact Or.inl (Or.inr ⟨h, hh⟩)
      · exact Or.inr (Or.inr ⟨h.symm, hh⟩)
    · exact Or.inr (Or.inl h)⟩

instance : IsTrans Row rowLe :=
  ⟨fun a b c hab hbc => by
    unfold rowLe at hab hbc ⊢
    rcases hab with h1 | ⟨h1, h1h⟩
    · rcases hbc with h2 | ⟨h2, h2h⟩
      · exact Or.inl (lt_trans h1 h2)
      · exact Or.inl (by rw [← h2]; exact h1)
    · rcases hbc with h2 | ⟨h2, h2h⟩
      · exact Or.inl (by rw [h1]; exact h2)
      · exact Or.inr ⟨h1.trans h2, le_trans h1h h2h⟩⟩

/-- Is the row's price non-null and strictly below the threshold? -/
def isCheap (threshold : ℚ) (r : Row) : Bool :=
  match r.price with
  | none => false
  | some p => decide (p < threshold)

/-- One iteration of the cumulative loop: bump the counter on a cheap row
and write the running total under the row's date. -/
def cumStep (threshold : ℚ) (st : List (String × ℕ) × ℕ) (r : Row) :
    List (String × ℕ) × ℕ :=
  let cum := if isCheap threshold r then st.2 + 1 else st.2
  (updOrApp st.1 r.date cum, cum)

/-- `cumulativeCheapHours` from `dataLoader.js` (lines 233–246): filter out
rows without date or hour, sort by `(date, hour)`, run a cumulative count of
prices strictly below the threshold, keep the per-date running total. -/
def cumulativeCheapHours (data : List Row) (threshold : ℚ) : List CumRow :=
  ((List.insertionSort rowLe (cheapFilter data)).foldl
    (cumStep threshold) ([], 0)).1.map (fun e => ⟨e.1, e.2⟩)

/-- The fold invariant of `cumulativeCheapHours` over a sorted row list: the
counter is the cheap-row count, each entry holds the cheap-row count of rows
up to and including its date, and the keys are strictly increasing. -/
theorem cumFold_spec (threshold : ℚ) (l : List Row) (hs : l.Sorted rowLe) :
    (l.foldl (cumStep threshold) ([], 0)).2 = l.countP (isCheap threshold) ∧
    (∀ e ∈ (l.foldl (cumStep threshold) ([], 0)).1,
      (∃ r ∈ l, r.date = e.1) ∧
      e.2 = l.countP (fun r => isCheap threshold r && decide (r.date ≤ e.1))) ∧
    (((l.foldl (cumStep threshold) ([], 0)).1.map Prod.fst).Pairwise (· < ·)) := by
  induction l using List.reverseRecOn with
  | nil => exact ⟨rfl, fun e he => absurd he (by simp), by simp⟩
  | append_singleton l x ih =>
    rw [List.Sorted, List.pairwise_append] at hs
    obtain ⟨hsl, -, hbnd⟩ := hs
    have hbound : ∀ r ∈ l, r.date ≤ x.date := by
      intro r hr
      rcases hbnd r hr x (List.mem_singleton.mpr rfl) with h | ⟨h, -⟩
      · exact le_of_lt h
      · exact le_of_eq h
    obtain ⟨hcum, hent, hpw⟩ := ih hsl
    have hnodup : ((l.foldl (cumStep threshold) ([], 0)).1.map Prod.fst).Nodup :=
      hpw.imp ne_of_lt
    rw [List.foldl_append]
    set st := l.foldl (cumStep threshold) ([], 0) with hst
    have hstep : (List.foldl (cumStep threshold) st [x]) =
        (updOrApp st.1 x.date (if isCheap threshold x then st.2 + 1 else st.2),
         if isCheap threshold x then st.2 + 1 else st.2) := by
      rw [List.foldl_cons, List.foldl_nil]
      rfl
    rw [hstep]
    have hcount_all : (∀ r ∈ l ++ [x], r.date ≤ x.date) →
        (l ++ [x]).countP (fun r => isCheap threshold r && decide (r.date ≤ x.date)) =
          (l ++ [x]).countP (isCheap threshold) := by
      intro hd
      apply List.countP_congr
      intro r hr
      simp [hd r hr]
    have hcum' : (if isCheap threshold x then st.2 + 1 else st.2) =
        (l ++ [x]).countP (isCheap threshold) := by
      rw [List.countP_append, hcum]
      by_cases hx : isCheap threshold x
      · rw [if_pos hx]
        simp [hx, List.countP_cons]
      · rw [if_neg hx]
        simp [hx, List.countP_cons]
    refine ⟨hcum', ?_, ?_⟩
    · intro e he
      rcases mem_updOrApp_strong (by simpa [keysA] using hnodup) he with
        ⟨hk, hv⟩ | ⟨hm, hk⟩
      · obtain ⟨k, v⟩ := e
        simp only at hk hv
        subst hk
        subst hv
        refine ⟨⟨x, by simp, rfl⟩, ?_⟩
        rw [hcum', hcount_all]
        intro r hr
        rcases List.mem_append.mp hr with hr | hr
        · exact hbound r hr
        · rw [List.mem_singleton.mp hr]
      · obtain ⟨⟨r0, hr0, hr0d⟩, hval⟩ := hent e hm
        refine ⟨⟨r0, List.mem_append_left _ hr0, hr0d⟩, ?_⟩
        rw [List.countP_append, hval]
        have hxd : ¬ (x.date ≤ e.1) := by
          intro hle
          apply hk
          have h1 : e.1 ≤ x.date := hr0d ▸ hbound r0 hr0
          exact le_antisymm h1 hle
        have h0 : List.countP (fun r => isCheap threshold r && decide (r.date ≤ e.1)) [x] = 0 := by
          rw [List.countP_cons, List.countP_nil,
            show (isCheap threshold x && decide (x.date ≤ e.1)) = false by
              rw [decide_eq_false hxd, Bool.and_false]]
          rfl
        rw [h0]
        omega
    · by_cases hmem : x.date ∈ keysA st.1
      · rw [show (updOrApp st.1 x.date
            (if isCheap threshold x then st.2 + 1 else st.2)).map Prod.fst =
            keysA (updOrApp st.1 x.date
              (if isCheap threshold x then st.2 + 1 else st.2)) from rfl,
          keysA_updOrApp_of_mem _ hmem]
        exact hpw
      · rw [show (updOrApp st.1 x.date
            (if isCheap threshold x then st.2 + 1 else st.2)).map Prod.fst =
            keysA (updOrApp st.1 x.date
              (if isCheap threshold x then st.2 + 1 else st.2)) from rfl,
          keysA_updOrApp_of_not_mem _ hmem]
        rw [List.pairwise_append]
        refine ⟨hpw, by simp, ?_⟩
        intro k hkm b hb
        rw [List.mem_singleton.mp hb]
        rcases List.mem_map.mp hkm with ⟨e, hem, hek⟩
        obtain ⟨⟨r0, hr0, hr0d⟩, -⟩ := hent e hem
        have h1 : k ≤ x.date := by
          rw [← hek, ← hr0d]
          exact hbound r0 hr0
        have h2 : k ≠ x.date := fun hkx => hmem (hkx ▸ hkm)
        exact lt_of_le_of_ne h1 h2

/-- C7: the rows of `cumulativeCheapHours` come in strictly ascending date
order with non-decreasing `totalCheapHours`, and each date's value counts
the rows (among those with a date and a non-null hour, the rows the function
keeps) whose non-null price is strictly below the threshold, up to and
including that date in `(date, hour)` order. -/
theorem cumulativeCheapHours_monotone :
    ∀ (data : List Row) (threshold : ℚ),
      List.Pairwise (fun a b : CumRow =>
        a.date < b.date ∧ a.totalCheapHours ≤ b.totalCheapHours)
        (cumulativeCheapHours data threshold) ∧
      ∀ row ∈ cumulativeCheapHours data threshold,
        row.totalCheapHours = (cheapFilter data).countP
          (fun r => isCheap threshold r && decide (r.date ≤ row.date)) := by
  intro data threshold
  have hsorted : (List.insertionSort rowLe (cheapFilter data)).Sorted rowLe :=
    List.sorted_insertionSort rowLe (cheapFilter data)
  obtain ⟨hcum, hent, hpw⟩ := cumFold_spec threshold _ hsorted
  have hperm : List.Perm (List.insertionSort rowLe (cheapFilter data)) (cheapFilter data) :=
    List.perm_insertionSort rowLe _
  constructor
  · rw [cumulativeCheapHours, List.pairwise_map]
    have hpw' : ((List.insertionSort rowLe (cheapFilter data)).foldl
        (cumStep threshold) ([], 0)).1.Pairwise
        (fun e e' : String × ℕ => e.1 < e'.1) := by
      rwa [List.pairwise_map] at hpw
    refine hpw'.imp_of_mem ?_
    intro e e' hme hme' hlt
    refine ⟨hlt, ?_⟩
    rw [show (CumRow.mk e.1 e.2).totalCheapHours = e.2 from rfl,
      show (CumRow.mk e'.1 e'.2).totalCheapHours = e'.2 from rfl,
      (hent e hme).2, (hent e' hme').2]
    apply List.countP_mono_left
    intro r hr hp
    simp only [Bool.and_eq_true, decide_eq_true_eq] at hp ⊢
    exact ⟨hp.1, le_trans hp.2 (le_of_lt hlt)⟩
  · intro row hrow
    rw [cumulativeCheapHours] at hrow
    rcases List.mem_map.mp hrow with ⟨e, hem, heq⟩
    rw [← heq,
      show (CumRow.mk e.1 e.2).totalCheapHours = e.2 from rfl,
      show (CumRow.mk e.1 e.2).date = e.1 from rfl,
      (hent e hem).2]
    exact hperm.countP_eq _

/-- Witness for C7 at a concrete one-row input. -/
theorem cumulativeCheapHours_monotone_witness :
    (CumRow.mk "2025-01-01" 1).totalCheapHours =
      (cheapFilter [Row.mk "2025-01-01" (some 1) (some 5)]).countP
        (fun r => isCheap 10 r && decide (r.date ≤ (CumRow.mk "2025-01-01" 1).date)) :=
  (cumulativeCheapHours_monotone [Row.mk "2025-01-01" (some 1) (some 5)] 10).2
    (CumRow.mk "2025-01-01" 1)
    (by have hev : cumulativeCheapHours [Row.mk "2025-01-01" (some 1) (some 5)] 10 =
          [CumRow.mk "2025-01-01" 1] := by
          norm_num [cumulativeCheapHours, cheapFilter, cumStep, isCheap, updOrApp,
            List.insertionSort, List.orderedInsert, CumRow.mk.injEq]
        rw [hev]
        exact List.mem_singleton.mpr rfl)
